import Mathlib

/-!
Verification of the recursive site crawler in src/siteCrawler.py.

Strings are modelled as lists of Unicode code points (`Str := List Nat`).
The crawler's URL handling goes through Python's urllib.parse
(urldefrag, urlparse, urlunparse); those library functions are embedded
here faithfully, following CPython's Lib/urllib/parse.py, with two
idealizations: the removal of TAB/CR/LF bytes and the IPv6-bracket
ValueError are not modelled (the model covers URLs free of those
characters, which includes every URL the spec and the claims mention),
and str.lower is modelled on its ASCII fragment.
-/

namespace SiteCrawler

abbrev Str := List Nat

/-- Code point of a character, used to write character constants readably. -/
def ch (c : Char) : Nat := c.toNat

/-- Code points of a string literal, used to write concrete URLs readably. -/
def S (s : String) : Str := s.data.map ch

/-- ASCII fragment of Python str.lower, on one code point. -/
def lowerN (n : Nat) : Nat := if 65 ≤ n ∧ n ≤ 90 then n + 32 else n

/-- Python str.lower on a string (ASCII fragment). -/
def lowerS (s : Str) : Str := s.map lowerN

/-- Python s.split(d, 1): the part before the first occurrence of d, and
the part after it when d occurs. -/
def splitFirst (d : Nat) : Str → Str × Option Str
  | [] => ([], none)
  | c :: cs =>
    if c = d then ([], some cs)
    else
      let r := splitFirst d cs
      (c :: r.1, r.2)

/-- Split at the last occurrence of d: l = a ++ d :: b with d not in b. -/
def splitLast (d : Nat) : Str → Option (Str × Str)
  | [] => none
  | c :: cs =>
    match splitLast d cs with
    | some (a, b) => some (c :: a, b)
    | none => if c = d then some ([], cs) else none

/-- Python str.rstrip(slash): drop all trailing slash characters. -/
def rstripSlash (s : Str) : Str := (s.reverse.dropWhile (fun c => c = ch '/')).reverse

/-- ASCII letter (Python url[0].isascii() and url[0].isalpha()). -/
def isAsciiAlphaB (n : Nat) : Bool := (65 ≤ n && n ≤ 90) || (97 ≤ n && n ≤ 122)

/-- Membership in urllib's scheme_chars (ASCII letters, digits, +, -, .). -/
def isSchemeCharB (n : Nat) : Bool :=
  isAsciiAlphaB n || (48 ≤ n && n ≤ 57) || n = ch '+' || n = ch '-' || n = ch '.'

/-- A netloc delimiter character, per urllib _splitnetloc. -/
def isNetlocDelim (n : Nat) : Bool := n = ch '/' || n = ch '?' || n = ch '#'

/-- Scheme extraction step of urllib urlsplit: if the text before the first
colon is nonempty, starts with an ASCII letter and consists of scheme
characters, it is the scheme (lower-cased by urlsplit itself) and the rest
follows the colon; otherwise there is no scheme and the URL is unchanged. -/
def splitScheme (url : Str) : Str × Str :=
  match splitFirst (ch ':') url with
  | (h :: pre, some rest) =>
    if isAsciiAlphaB h && (h :: pre).all isSchemeCharB then (lowerS (h :: pre), rest)
    else ([], url)
  | _ => ([], url)

/-- urllib _splitnetloc on the text after the leading two slashes: the netloc
runs to the first of slash, question mark or hash. -/
def splitNetloc (rest : Str) : Str × Str :=
  (rest.takeWhile (fun c => !isNetlocDelim c), rest.dropWhile (fun c => !isNetlocDelim c))

/-- Result of urllib urlsplit. -/
structure PSplit where
  scheme : Str
  netloc : Str
  path : Str
  query : Str
  fragment : Str
deriving DecidableEq

/-- urllib urlsplit (allow_fragments true, as the crawler always calls it). -/
def urlsplit (url : Str) : PSplit :=
  let sr := splitScheme url
  let nr := if sr.2.take 2 = [ch '/', ch '/'] then splitNetloc (sr.2.drop 2)
            else ([], sr.2)
  let fr := match splitFirst (ch '#') nr.2 with
    | (a, some f) => (a, f)
    | (a, none) => (a, ([] : Str))
  let qr := match splitFirst (ch '?') fr.1 with
    | (a, some q) => (a, q)
    | (a, none) => (a, ([] : Str))
  ⟨sr.1, nr.1, qr.1, qr.2, fr.2⟩

/-- urllib _splitparams: take the params off the last path segment (first
semicolon at or after the last slash; first semicolon overall when the path
has no slash). Only called when the path contains a semicolon. -/
def splitParams (pp : Str) : Str × Str :=
  match splitLast (ch '/') pp with
  | some (a, b) =>
    (match splitFirst (ch ';') b with
     | (b1, some b2) => (a ++ ch '/' :: b1, b2)
     | (_, none) => (pp, []))
  | none =>
    (match splitFirst (ch ';') pp with
     | (p1, some p2) => (p1, p2)
     | (_, none) => (pp, []))

/-- Result of urllib urlparse. -/
structure PParse where
  scheme : Str
  netloc : Str
  path : Str
  params : Str
  query : Str
  fragment : Str
deriving DecidableEq

/-- urllib uses_params: the schemes whose URLs carry params segments. -/
def uses_params : List Str :=
  ["", "ftp", "hdl", "prospero", "http", "imap", "https", "shttp", "rtsp",
   "rtsps", "rtspu", "sip", "sips", "mms", "sftp", "tel"].map S

/-- urllib uses_netloc: the schemes whose URLs carry a network location. -/
def uses_netloc : List Str :=
  ["", "ftp", "http", "gopher", "nntp", "telnet", "imap", "wais", "file",
   "mms", "https", "shttp", "snews", "prospero", "rtsp", "rtsps", "rtspu",
   "rsync", "svn", "svn+ssh", "sftp", "nfs", "git", "git+ssh", "ws",
   "wss"].map S

/-- urllib urlparse: urlsplit, then params split off the path when the scheme
uses params. -/
def urlparse (url : Str) : PParse :=
  let s := urlsplit url
  let pr := if s.scheme ∈ uses_params ∧ s.path.contains (ch ';') then splitParams s.path
            else (s.path, [])
  ⟨s.scheme, s.netloc, pr.1, pr.2, s.query, s.fragment⟩

/-- urllib urlunsplit (CPython 3.11): the double slash is emitted when there
is a netloc, or when the scheme uses a netloc and the path does not already
begin with two slashes. -/
def urlunsplit (scheme netloc url query fragment : Str) : Str :=
  let u1 : Str :=
    if netloc ≠ [] ∨ (scheme ≠ [] ∧ scheme ∈ uses_netloc ∧ url.take 2 ≠ [ch '/', ch '/']) then
      ch '/' :: ch '/' :: (netloc ++ (if url ≠ [] ∧ url.headD 0 ≠ ch '/' then ch '/' :: url else url))
    else url
  let u2 : Str := if scheme ≠ [] then scheme ++ ch ':' :: u1 else u1
  let u3 : Str := if query ≠ [] then u2 ++ ch '?' :: query else u2
  if fragment ≠ [] then u3 ++ ch '#' :: fragment else u3

/-- urllib urlunparse: rejoin params to the path, then urlunsplit. -/
def urlunparse (p : PParse) : Str :=
  let u := if p.params ≠ [] then p.path ++ ch ';' :: p.params else p.path
  urlunsplit p.scheme p.netloc u p.query p.fragment

/-- urllib urldefrag: when a hash is present, parse and rebuild the URL with
an empty fragment; otherwise return the URL unchanged. -/
def urldefrag (url : Str) : Str × Str :=
  if url.contains (ch '#') then
    let p := urlparse url
    (urlunparse ⟨p.scheme, p.netloc, p.path, p.params, p.query, []⟩, p.fragment)
  else (url, [])

/-- The field transformation normalize_url applies to the parse of the
defragmented URL: path stripped of trailing slashes then lower-cased,
scheme and netloc lower-cased, params, query and fragment kept. -/
def normTransform (p : PParse) : PParse :=
  ⟨lowerS p.scheme, lowerS p.netloc, lowerS (rstripSlash p.path), p.params, p.query, p.fragment⟩

/-- normalize_url from src/siteCrawler.py: drop the fragment, parse,
strip trailing slashes from the path, and rebuild with lower-cased
scheme, netloc and path. -/
def normalize_url (url : Str) : Str :=
  let u := (urldefrag url).1
  urlunparse (normTransform (urlparse u))

/-! ### Crawler code from src/siteCrawler.py

The network, the filesystem and the external crawl4ai renderer are the
environment: they are passed in as explicit outcome functions, and the
crawler's control flow over them is embedded faithfully. -/

/-- USE_PROXIES from src/siteCrawler.py. -/
def USE_PROXIES : Bool := false

/-- MAX_RETRIES from src/siteCrawler.py. -/
def MAX_RETRIES : Nat := 5

/-- ProxyConfig as built by parse_proxy. -/
structure ProxyConfig where
  server : Str
  username : Str
  password : Str
deriving DecidableEq

/-- load_proxies: with USE_PROXIES false it returns the empty list without
touching the proxy file; the file-reading branch is unreachable because
USE_PROXIES is the constant false. -/
def load_proxies : List ProxyConfig :=
  if USE_PROXIES then [] else []

/-- Module-level proxies list. -/
def proxies : List ProxyConfig := load_proxies

/-- get_next_proxy: none when proxies are disabled or the pool is empty.
The random.choice branch is unreachable (USE_PROXIES is false, so the pool
is always empty), hence the model never reaches a random draw. -/
def get_next_proxy : Option ProxyConfig :=
  if !USE_PROXIES || proxies.isEmpty then none else proxies.headD ⟨[], [], []⟩ |> some

/-- Does hay begin with the segment nee. -/
def startsSeg : Str → Str → Bool
  | [], _ => true
  | _ :: _, [] => false
  | a :: as, b :: bs => a == b && startsSeg as bs

/-- Python substring test: nee occurs somewhere in hay. -/
def hasSeg (nee : Str) : Str → Bool
  | [] => startsSeg nee []
  | c :: t => startsSeg nee (c :: t) || hasSeg nee t

/-- Python str.endswith for one candidate. -/
def endsSeg (suf l : Str) : Bool := startsSeg suf.reverse l.reverse

/-- Outcome of the classification GET in is_downloadable: either the response
headers (Content-Type, Content-Disposition, empty when absent) or a network
error / timeout. -/
inductive ProbeOutcome
  | headers (contentType contentDisp : Str)
  | err
deriving DecidableEq

/-- The MIME fragments is_downloadable looks for in Content-Type. -/
def mimeFrags : List Str :=
  ["application/pdf", "application/msword", "application/vnd", "text/plain"].map S

/-- The extension test of is_downloadable: Python
url_lower.endswith((".pdf", ".doc", ".docx", ".txt")). Note it runs on the
whole URL string, not on its path component. -/
def endswithDocExt (l : Str) : Bool :=
  endsSeg (S ".pdf") l || endsSeg (S ".doc") l ||
    endsSeg (S ".docx") l || endsSeg (S ".txt") l

/-- is_downloadable from src/siteCrawler.py, the network GET replaced by its
outcome. First component: the classification; second: whether the network
probe was consulted (the extension test short-circuits it). The except
branch prints and returns False. -/
def is_downloadable (url : Str) (probe : ProbeOutcome) : Bool × Bool :=
  let url_lower := lowerS url
  if endswithDocExt url_lower then
    (true, false)
  else
    match probe with
    | .headers ct cd =>
      let content_type := lowerS ct
      let content_disp := lowerS cd
      (hasSeg (S "attachment") content_disp ||
        mimeFrags.any (fun m => hasSeg m content_type), true)
    | .err => (false, true)

/-- Text after the first occurrence of the segment sep (sep assumed present
and nonempty where used). -/
def afterFirstSeg (sep : Str) : Str → Str
  | [] => []
  | c :: t => if startsSeg sep (c :: t) then (c :: t).drop sep.length else afterFirstSeg sep t

/-- Text before the first occurrence of the segment sep (all of it when sep
is absent). -/
def upToSeg (sep : Str) : Str → Str
  | [] => []
  | c :: t => if startsSeg sep (c :: t) then [] else c :: upToSeg sep t

/-- Python str.strip(chars): remove the given characters from both ends. -/
def stripChars (cs : List Nat) (l : Str) : Str :=
  ((l.dropWhile (fun c => cs.contains c)).reverse.dropWhile (fun c => cs.contains c)).reverse

/-- os.path.basename: the text after the last slash. -/
def basenameOf (p : Str) : Str :=
  match splitLast (ch '/') p with
  | some (_, b) => b
  | none => p

/-- Filename selection of download_file: Content-Disposition filename if
present (Python content_disposition.split("filename=")[1].strip(quote,
semicolon, space)), else the URL path's basename, else "downloaded_file". -/
def download_filename (url : Str) (contentDisp : Str) : Str :=
  if hasSeg (S "filename=") contentDisp then
    stripChars [ch '"', ch ';', ch ' '] (upToSeg (S "filename=") (afterFirstSeg (S "filename=") contentDisp))
  else
    let path := (urlparse url).path
    let base := basenameOf path
    if base = [] then S "downloaded_file" else base

/-- The download GET's outcome: the Content-Disposition header, the body
chunks successfully read, and whether a read error cuts the stream off after
them. -/
structure DlResp where
  contentDisp : Str
  chunks : List Str
  readErr : Bool
deriving DecidableEq

/-- Environment of one download_file call: GET outcome and filesystem
outcomes (directory creation, opening the output file, appending to the
map file). -/
structure DlEnv where
  resp : Option DlResp
  mkdirOk : Bool
  openOk : Bool
  appendOk : Bool
deriving DecidableEq

/-- The filesystem state download_file touches: document writes (filename,
content written) and the lines of links_map.txt. -/
structure FileSys where
  files : List (Str × Str)
  mapLines : List Str
deriving DecidableEq

/-- Concatenation of the streamed body chunks, the content the chunk loop
writes. -/
def joinChunks (cs : List Str) : Str := cs.foldl (fun a c => a ++ c) []

/-- download_file from src/siteCrawler.py. The whole body is inside
try/except, so every failure returns normally with no map line; the map
line is appended only after the chunk loop finishes. A read error mid-body
leaves the partially written file and aborts before the append. -/
def download_file (env : DlEnv) (url : Str) (fs : FileSys) : FileSys :=
  match env.resp with
  | none => fs
  | some resp =>
    let filename := download_filename url resp.contentDisp
    if !env.mkdirOk then fs
    else if !env.openOk then fs
    else
      let content := joinChunks resp.chunks
      if resp.readErr then { fs with files := fs.files ++ [(filename, content)] }
      else if !env.appendOk then { fs with files := fs.files ++ [(filename, content)] }
      else { files := fs.files ++ [(filename, content)],
             mapLines := fs.mapLines ++ [url ++ ch ',' :: filename] }

/-- Every step of download_file succeeded: the GET, the directory creation,
the output file open, the full body stream, and the map-file append. -/
def dlAllOk (env : DlEnv) : Bool :=
  match env.resp with
  | none => false
  | some resp => env.mkdirOk && env.openOk && !resp.readErr && env.appendOk

/-- Result object of one crawler.arun call (crawl4ai interface): final URL,
success flag, markdown, and the internal links' hrefs. -/
structure CrawlResult where
  url : Str
  success : Bool
  markdown : Option Str
  internalLinks : List Str
deriving DecidableEq

/-- Outcome of one crawler.arun call: a result object, or an exception. -/
inductive AttemptOutcome
  | res (r : CrawlResult)
  | err
deriving DecidableEq

/-- The retry loop of crawl_url: at most the given number of attempts; each
iteration draws a proxy, runs the renderer, and returns the first result
whose success flag is set; a failed result or an exception moves on to the
next attempt. Returns the result, the number of attempts made, and the
proxies drawn (one per attempt). -/
def runRetries (att : Nat → AttemptOutcome) (i : Nat) : Nat → Option CrawlResult × Nat × List (Option ProxyConfig)
  | 0 => (none, 0, [])
  | Nat.succ rem =>
    let proxy := get_next_proxy
    match att i with
    | .res r =>
      if r.success then (some r, 1, [proxy])
      else
        let out := runRetries att (i + 1) rem
        (out.1, out.2.1 + 1, proxy :: out.2.2)
    | .err =>
      let out := runRetries att (i + 1) rem
      (out.1, out.2.1 + 1, proxy :: out.2.2)

/-- Environment of the crawl: outcome of the classification probe per URL,
and outcome of each render attempt per URL and attempt index. -/
structure CrawlEnv where
  probe : Str → ProbeOutcome
  att : Str → Nat → AttemptOutcome

/-- Observable outcome of crawl_url for one URL. -/
structure UrlOutcome where
  result : Option CrawlResult
  probed : Bool
  downloaded : Bool
  attempts : Nat
deriving DecidableEq

/-- crawl_url from src/siteCrawler.py: classify; a downloadable URL is
downloaded and yields None; otherwise run the renderer with retries (giving
None after the attempts are exhausted). -/
def crawl_url (env : CrawlEnv) (url : Str) : UrlOutcome :=
  let c := is_downloadable url (env.probe url)
  if c.1 then { result := none, probed := c.2, downloaded := true, attempts := 0 }
  else
    let out := runRetries (env.att url) 0 MAX_RETRIES
    { result := out.1, probed := c.2, downloaded := false, attempts := out.2.1 }

/-- Python set.add on the insertion-ordered list model of a set. -/
def insertSet (a : Str) (l : List Str) : List Str := if a ∈ l then l else l ++ [a]

/-- urlparse(u).netloc.lower(), the link filter's host of a URL. -/
def netlocLower (u : Str) : Str := lowerS (urlparse u).netloc

/-- The result fold of crawl_recursive_batch: skip None results; add each
result's normalized URL to visited; for successful results, add each
internal link whose normalized form has the base domain's host and is not
in visited to the next level's set. Returns (visited, next_level_urls). -/
def foldResults (base : Str) : List (Option CrawlResult) → List Str → List Str → List Str × List Str
  | [], visited, nextL => (visited, nextL)
  | none :: rs, visited, nextL => foldResults base rs visited nextL
  | some r :: rs, visited, nextL =>
    let nu := normalize_url r.url
    let visited1 := insertSet nu visited
    let next1 :=
      if r.success then
        r.internalLinks.foldl (fun acc href =>
          let next_url := normalize_url href
          if netlocLower next_url = base ∧ next_url ∉ visited1 then insertSet next_url acc
          else acc) nextL
      else nextL
    foldResults base rs visited1 next1

/-- base_domain of crawl_recursive_batch: host of the first seed, lowered
(the script assumes a nonempty seed list; the empty default never arises). -/
def baseDomainOf (start_urls : List Str) : Str := lowerS (urlparse (start_urls.headD [])).netloc

/-- Observables of a crawl run: the urls_to_crawl list of every executed
wave, and the final visited set. -/
structure RunOut where
  waves : List (List Str)
  visitedF : List Str
deriving DecidableEq

/-- The depth loop of crawl_recursive_batch: re-normalize the current set,
filter against visited, stop on an empty wave, crawl the wave (asyncio.gather
keeps the task order), fold the results, recurse on the next level. -/
def crawlLoop (env : CrawlEnv) (base : Str) : List Str → List Str → Nat → RunOut
  | visited, _current, 0 => ⟨[], visited⟩
  | visited, current, Nat.succ d =>
    let toCrawl := current.filterMap (fun u =>
      if normalize_url u ∈ visited then none else some (normalize_url u))
    if toCrawl = [] then ⟨[], visited⟩
    else
      let results := toCrawl.map (fun u => (crawl_url env u).result)
      let folded := foldResults base results visited []
      let rest := crawlLoop env base folded.1 folded.2 d
      ⟨toCrawl :: rest.waves, rest.visitedF⟩

/-- crawl_recursive_batch from src/siteCrawler.py: seed the current set with
the normalized start URLs, then run the depth loop with an empty visited
set. -/
def crawl_recursive_batch (env : CrawlEnv) (start_urls : List Str) (max_depth : Nat) : RunOut :=
  let current := start_urls.foldl (fun acc u => insertSet (normalize_url u) acc) []
  crawlLoop env (baseDomainOf start_urls) [] current max_depth

/-- The normalizer the specification describes, as a refinement target,
following the spec words: strip the fragment; lower-case scheme and host;
strip trailing slashes from the path; leave every other component, the
path's letter-casing included, unchanged. -/
def specNormalize (url : Str) : Str :=
  let u := (urldefrag url).1
  let p := urlparse u
  urlunparse ⟨lowerS p.scheme, lowerS p.netloc, rstripSlash p.path, p.params, p.query, p.fragment⟩

/-- The spec normalizer amended to what the code does: the path is also
lower-cased after the trailing slashes are stripped. -/
def specNormalizeAmended (url : Str) : Str :=
  let u := (urldefrag url).1
  let p := urlparse u
  urlunparse ⟨lowerS p.scheme, lowerS p.netloc, lowerS (rstripSlash p.path), p.params, p.query, p.fragment⟩

/-! ### Concrete fixtures for counterexamples and witnesses -/

/-- A same-domain page URL, already in normal form. -/
def urlA : Str := S "http://h/a"

/-- A second same-domain page URL, already in normal form. -/
def urlB : Str := S "http://h/b"

/-- A successful render of urlB whose page links to urlA. -/
def resB : CrawlResult := ⟨urlB, true, none, [urlA]⟩

/-- Environment where urlB renders fine (linking to urlA) and every other
URL keeps failing: the probe always errors and renders of other URLs always
raise. -/
def envRefetch : CrawlEnv := ⟨fun _ => .err, fun u _ => if u = urlB then .res resB else .err⟩

/-- Environment where every probe and every render fails. -/
def envFailAll : CrawlEnv := ⟨fun _ => .err, fun _ _ => .err⟩

/-- Environment where every render succeeds at once: urlB's page links to
urlA, every other page has no links. -/
def envSucc : CrawlEnv :=
  ⟨fun _ => .err, fun u _ => if u = urlB then .res resB else .res ⟨u, true, none, []⟩⟩

/-- An off-domain link target. -/
def offLink : Str := S "http://other/x"

/-- A successful render whose page links only off-domain. -/
def resOff : CrawlResult := ⟨urlB, true, none, [offLink]⟩

/-- Environment where every render succeeds with only the off-domain link. -/
def envOffDomain : CrawlEnv := ⟨fun _ => .err, fun _ _ => .res resOff⟩

/-- A URL whose path ends in .pdf but which carries a query string. -/
def pdfQ : Str := S "http://h/a.pdf?x=1"

/-- A download response carrying a filename and two body chunks. -/
def dlRespOk : DlResp := ⟨S "attachment; filename=r.pdf", [S "AB", S "CD"], false⟩

/-- A download environment where every step succeeds. -/
def dlEnvOk : DlEnv := ⟨some dlRespOk, true, true, true⟩

/-- A download environment where the map-file append fails. -/
def dlEnvNoAppend : DlEnv := ⟨some dlRespOk, true, true, false⟩


end SiteCrawler

namespace SiteCrawler

example : urlparse (S "http://h/a/;b/") =
    ⟨S "http", S "h", S "/a/;b/", [], [], []⟩ := by decide

example : normalize_url (S "http://h/a/;b/") = S "http://h/a/;b" := by decide

example : normalize_url (S "http://h/a/;b") = S "http://h/a;b" := by decide

example : normalize_url (S "HTTP://Example.com/a/") = S "http://example.com/a" := by decide

example : normalize_url (S "http://example.com/a#frag") = S "http://example.com/a" := by decide

example : normalize_url (S "http://h/A") = S "http://h/a" := by decide

example : normalize_url (S "http://h/a?x=1") = S "http://h/a?x=1" := by decide

example : normalize_url (S "http:x") = S "http:///x" := by decide

example : normalize_url (S "/////x") = S "///x" := by decide

example : normalize_url (S "///x") = S "/x" := by decide

example : normalize_url (S "http://///x") = S "http:///x" := by decide

example : normalize_url (S "mailto:a;B/") = S "mailto:a;b" := by decide

example : normalize_url (S "http://h/a;P/") = S "http://h/a;p" := by decide

example : normalize_url (S "http://h/a;P") = S "http://h/a;P" := by decide

example : normalize_url (S "////x") = S "//x" := by decide

example : normalize_url (S "//") = S "" := by decide

example : normalize_url (S "http://h/") = S "http://h" := by decide

example : normalize_url (S "mailto:John@X.com") = S "mailto:john@x.com" := by decide

example : normalize_url (S "http://h/p?") = S "http://h/p" := by decide

example : normalize_url (S "a+B.c:Z/") = S "a+b.c:z" := by decide

/-! ### Character-level lemmas for the normalizer -/

lemma lowerN_idem (c : Nat) : lowerN (lowerN c) = lowerN c := by
  unfold lowerN
  split
  · split <;> omega
  · rfl

lemma lowerN_eq_low {c k : Nat} (hk : k < 65) : lowerN c = k ↔ c = k := by
  unfold lowerN
  split <;> omega

lemma lowerN_low_fix {c : Nat} (hc : c < 65) : lowerN c = c := by
  unfold lowerN
  split <;> omega

lemma ch_slash : ch '/' = 47 := by decide

lemma ch_colon : ch ':' = 58 := by decide

lemma ch_semi : ch ';' = 59 := by decide

lemma ch_query : ch '?' = 63 := by decide

lemma ch_hash : ch '#' = 35 := by decide

lemma isAsciiAlphaB_iff (c : Nat) :
    isAsciiAlphaB c = true ↔ (65 ≤ c ∧ c ≤ 90) ∨ (97 ≤ c ∧ c ≤ 122) := by
  simp [isAsciiAlphaB]

lemma isSchemeCharB_iff (c : Nat) :
    isSchemeCharB c = true ↔ (65 ≤ c ∧ c ≤ 90) ∨ (97 ≤ c ∧ c ≤ 122) ∨
      (48 ≤ c ∧ c ≤ 57) ∨ c = 43 ∨ c = 45 ∨ c = 46 := by
  simp [isSchemeCharB, isAsciiAlphaB, ch]
  omega

lemma lowerN_alpha (c : Nat) : isAsciiAlphaB (lowerN c) = isAsciiAlphaB c := by
  unfold lowerN
  split <;> rename_i h
  · have e1 : isAsciiAlphaB (c + 32) = true := (isAsciiAlphaB_iff _).mpr (Or.inr ⟨by omega, by omega⟩)
    have e2 : isAsciiAlphaB c = true := (isAsciiAlphaB_iff _).mpr (Or.inl h)
    rw [e1, e2]
  · rfl

lemma lowerN_scheme (c : Nat) : isSchemeCharB (lowerN c) = isSchemeCharB c := by
  unfold lowerN
  split <;> rename_i h
  · have e1 : isSchemeCharB (c + 32) = true :=
      (isSchemeCharB_iff _).mpr (Or.inr (Or.inl ⟨by omega, by omega⟩))
    have e2 : isSchemeCharB c = true := (isSchemeCharB_iff _).mpr (Or.inl h)
    rw [e1, e2]
  · rfl

lemma isNetlocDelim_iff (c : Nat) : isNetlocDelim c = true ↔ c = 47 ∨ c = 63 ∨ c = 35 := by
  simp [isNetlocDelim, ch]
  constructor
  · rintro (h | h | h) <;> omega
  · intro h; omega

lemma lowerN_netlocDelim (c : Nat) : isNetlocDelim (lowerN c) = isNetlocDelim c := by
  rw [Bool.eq_iff_iff, isNetlocDelim_iff, isNetlocDelim_iff]
  unfold lowerN
  split <;> omega

lemma lowerS_idem (s : Str) : lowerS (lowerS s) = lowerS s := by
  unfold lowerS
  rw [List.map_map]
  exact List.map_congr_left fun c _ => lowerN_idem c

lemma lowerS_nil : lowerS [] = [] := rfl

lemma lowerS_cons (c : Nat) (l : Str) : lowerS (c :: l) = lowerN c :: lowerS l := rfl

lemma lowerS_append (a b : Str) : lowerS (a ++ b) = lowerS a ++ lowerS b :=
  List.map_append lowerN a b

lemma lowerS_eq_nil_iff (l : Str) : lowerS l = [] ↔ l = [] := by simp [lowerS]

lemma mem_lowerS {c : Nat} {l : Str} : c ∈ lowerS l ↔ ∃ c2 ∈ l, lowerN c2 = c := by
  simp [lowerS]

lemma mem_lowerS_low {k : Nat} {l : Str} (hk : k < 65) : k ∈ lowerS l ↔ k ∈ l := by
  rw [mem_lowerS]
  constructor
  · rintro ⟨c2, hc2, he⟩
    rwa [(lowerN_eq_low hk).mp he] at hc2
  · intro h
    exact ⟨k, h, lowerN_low_fix hk⟩

lemma lowerS_all_scheme {l : Str} (h : l.all isSchemeCharB = true) :
    (lowerS l).all isSchemeCharB = true := by
  rw [List.all_eq_true] at h ⊢
  intro c hc
  obtain ⟨c2, hc2, rfl⟩ := mem_lowerS.mp hc
  rw [lowerN_scheme]
  exact h c2 hc2

lemma lowerS_take (l : Str) (n : Nat) : (lowerS l).take n = lowerS (l.take n) :=
  (List.map_take lowerN l n).symm

lemma lowerS_eq_slashes {l : Str} (h : lowerS l = [47, 47, 47]) : l = [47, 47, 47] := by
  rcases l with _ | ⟨a, _ | ⟨b, _ | ⟨c, _ | _⟩⟩⟩ <;> simp [lowerS] at h ⊢
  · obtain ⟨h1, h2, h3⟩ := h
    exact ⟨(lowerN_eq_low (by omega)).mp h1, (lowerN_eq_low (by omega)).mp h2,
      (lowerN_eq_low (by omega)).mp h3⟩

/-! ### splitFirst lemmas -/

lemma splitFirst_nil (d : Nat) : splitFirst d [] = ([], none) := rfl

lemma splitFirst_cons_eq (d : Nat) (t : Str) : splitFirst d (d :: t) = ([], some t) := by
  simp [splitFirst]

lemma splitFirst_cons_ne (d c : Nat) (t : Str) (h : c ≠ d) :
    splitFirst d (c :: t) = (c :: (splitFirst d t).1, (splitFirst d t).2) := by
  simp [splitFirst, h]

lemma splitFirst_not_mem {d : Nat} : ∀ {l : Str}, d ∉ l → splitFirst d l = (l, none) := by
  intro l
  induction l with
  | nil => intro _; rfl
  | cons c t ih =>
    intro h
    have hc : c ≠ d := fun he => h (he ▸ List.mem_cons_self c t)
    rw [splitFirst_cons_ne d c t hc, ih (fun hm => h (List.mem_cons_of_mem c hm))]

lemma splitFirst_append {d : Nat} : ∀ {a : Str} (b : Str), d ∉ a →
    splitFirst d (a ++ d :: b) = (a, some b) := by
  intro a
  induction a with
  | nil => intro b _; exact splitFirst_cons_eq d b
  | cons c t ih =>
    intro b h
    have hc : c ≠ d := fun he => h (he ▸ List.mem_cons_self c t)
    rw [List.cons_append, splitFirst_cons_ne d c _ hc, ih b (fun hm => h (List.mem_cons_of_mem c hm))]

lemma splitFirst_none_recon {d : Nat} : ∀ {l : Str}, (splitFirst d l).2 = none →
    (splitFirst d l).1 = l ∧ d ∉ l := by
  intro l
  induction l with
  | nil => intro _; exact ⟨rfl, List.not_mem_nil d⟩
  | cons c t ih =>
    intro h
    by_cases hc : c = d
    · subst hc
      rw [splitFirst_cons_eq] at h
      simp at h
    · rw [splitFirst_cons_ne d c t hc] at h ⊢
      obtain ⟨h1, h2⟩ := ih h
      exact ⟨by rw [h1], by simp [hc, h2]; intro he; exact hc he.symm⟩

lemma splitFirst_some_recon {d : Nat} : ∀ {l : Str} {b : Str}, (splitFirst d l).2 = some b →
    l = (splitFirst d l).1 ++ d :: b ∧ d ∉ (splitFirst d l).1 := by
  intro l
  induction l with
  | nil => intro b h; simp [splitFirst] at h
  | cons c t ih =>
    intro b h
    by_cases hc : c = d
    · subst hc
      rw [splitFirst_cons_eq] at h ⊢
      obtain rfl : t = b := by simpa using h
      exact ⟨rfl, List.not_mem_nil c⟩
    · rw [splitFirst_cons_ne d c t hc] at h ⊢
      obtain ⟨h1, h2⟩ := ih h
      constructor
      · simp only [List.cons_append]
        rw [← h1]
      · simp [h2]
        intro he
        exact hc he.symm

lemma splitFirst_fst_sub (d : Nat) : ∀ (l : Str), ∀ c ∈ (splitFirst d l).1, c ∈ l := by
  intro l
  induction l with
  | nil => intro c hc; simp [splitFirst] at hc
  | cons a t ih =>
    intro c hc
    by_cases ha : a = d
    · subst ha
      rw [splitFirst_cons_eq] at hc
      simp at hc
    · rw [splitFirst_cons_ne d a t ha] at hc
      rcases List.mem_cons.mp hc with rfl | hct
      · exact List.mem_cons_self c t
      · exact List.mem_cons_of_mem a (ih c hct)

lemma splitFirst_snd_sub {d : Nat} {l b : Str} (h : (splitFirst d l).2 = some b) :
    ∀ c ∈ b, c ∈ l := by
  intro c hc
  obtain ⟨h1, _⟩ := splitFirst_some_recon h
  rw [h1]
  exact List.mem_append_right _ (List.mem_cons_of_mem d hc)

/-! ### takeWhile, dropWhile and rstrip lemmas -/

lemma takeWhile_append_all {p : Nat → Bool} : ∀ {n : Str} {rest : Str},
    (∀ c ∈ n, p c = true) → (∀ c t, rest = c :: t → p c = false) →
    (n ++ rest).takeWhile p = n ∧ (n ++ rest).dropWhile p = rest := by
  intro n
  induction n with
  | nil =>
    intro rest _ h2
    cases rest with
    | nil => exact ⟨rfl, rfl⟩
    | cons c t =>
      have := h2 c t rfl
      simp [List.takeWhile, List.dropWhile, this]
  | cons a m ih =>
    intro rest h h2
    have ha : p a = true := h a (List.mem_cons_self a m)
    obtain ⟨e1, e2⟩ := ih (fun c hc => h c (List.mem_cons_of_mem a hc)) h2
    constructor
    · simp only [List.cons_append, List.takeWhile_cons, ha, if_true, e1]
    · simp only [List.cons_append, List.dropWhile_cons, ha, if_true, e2]

lemma head_dropWhile_false {p : Nat → Bool} : ∀ {l : Str} {c : Nat},
    (l.dropWhile p).head? = some c → p c = false := by
  intro l
  induction l with
  | nil => intro c h; simp [List.dropWhile] at h
  | cons a t ih =>
    intro c h
    by_cases ha : p a = true
    · rw [List.dropWhile_cons, if_pos ha] at h
      exact ih h
    · rw [List.dropWhile_cons, if_neg ha] at h
      obtain rfl : a = c := by simpa using h
      simpa using ha

lemma rstrip_decomp (s : Str) :
    ∃ k, s = rstripSlash s ++ List.replicate k (ch '/') := by
  unfold rstripSlash
  refine ⟨(s.reverse.takeWhile (fun c => decide (c = ch '/'))).length, ?_⟩
  have e1 : s = ((s.reverse.takeWhile (fun c => decide (c = ch '/'))) ++
      (s.reverse.dropWhile (fun c => decide (c = ch '/')))).reverse := by
    rw [List.takeWhile_append_dropWhile, List.reverse_reverse]
  have e2 : (s.reverse.takeWhile (fun c => decide (c = ch '/'))) =
      List.replicate (s.reverse.takeWhile (fun c => decide (c = ch '/'))).length (ch '/') := by
    apply List.eq_replicate_of_mem
    intro b hb
    have := List.mem_takeWhile_imp hb
    simpa using this
  calc s = ((s.reverse.takeWhile (fun c => decide (c = ch '/'))) ++
      (s.reverse.dropWhile (fun c => decide (c = ch '/')))).reverse := e1
    _ = (s.reverse.dropWhile (fun c => decide (c = ch '/'))).reverse ++
        (s.reverse.takeWhile (fun c => decide (c = ch '/'))).reverse := by
        rw [List.reverse_append]
    _ = _ := by
        rw [congrArg List.reverse e2, List.reverse_replicate]

lemma rstrip_last_ne (s : Str) : (rstripSlash s).getLast? ≠ some (ch '/') := by
  unfold rstripSlash
  rw [List.getLast?_reverse]
  intro h
  have := head_dropWhile_false h
  simp at this

lemma rstrip_fix {s : Str} (h : s.getLast? ≠ some (ch '/')) : rstripSlash s = s := by
  unfold rstripSlash
  cases hs : s.reverse with
  | nil =>
    have : s = [] := by simpa using congrArg List.reverse hs
    simp [this]
  | cons c t =>
    have hc : c ≠ ch '/' := by
      intro he
      apply h
      rw [← List.head?_reverse, hs, he]
      rfl
    rw [List.dropWhile_cons, if_neg (by simpa using hc), ← hs, List.reverse_reverse]

lemma rstrip_idem (s : Str) : rstripSlash (rstripSlash s) = rstripSlash s :=
  rstrip_fix (rstrip_last_ne s)

lemma rstrip_sub (s : Str) : ∀ c ∈ rstripSlash s, c ∈ s := by
  intro c hc
  obtain ⟨k, hk⟩ := rstrip_decomp s
  rw [hk]
  exact List.mem_append_left _ hc

lemma rstrip_take3 {s : Str} (h : s.take 3 ≠ [ch '/', ch '/', ch '/']) :
    (rstripSlash s).take 3 ≠ [ch '/', ch '/', ch '/'] := by
  intro he
  apply h
  obtain ⟨k, hk⟩ := rstrip_decomp s
  have hlen : 3 ≤ (rstripSlash s).length := by
    have := congrArg List.length he
    simp at this
    omega
  rw [hk, List.take_append_of_le_length hlen, he]

/-! ### splitScheme lemmas -/

/-- The shape of a scheme as urlsplit stores it: nonempty, leading ASCII
letter, scheme characters only, already lower-cased. -/
def SchemeValid (s : Str) : Prop :=
  s ≠ [] ∧ isAsciiAlphaB (s.headD 0) = true ∧ s.all isSchemeCharB = true ∧ lowerS s = s

lemma schemeChar_ne_colon {c : Nat} (h : isSchemeCharB c = true) : c ≠ ch ':' := by
  rw [ch_colon]
  have := (isSchemeCharB_iff c).mp h
  omega

lemma schemeValid_no_colon {s : Str} (hv : SchemeValid s) : ch ':' ∉ s := by
  intro hm
  exact schemeChar_ne_colon (List.all_eq_true.mp hv.2.2.1 _ hm) rfl

lemma splitScheme_valid {s : Str} (r : Str) (hv : SchemeValid s) :
    splitScheme (s ++ ch ':' :: r) = (s, r) := by
  obtain ⟨hne, ha, hall, hlow⟩ := hv
  obtain ⟨h0, t0, rfl⟩ := List.exists_cons_of_ne_nil hne
  have hnc : ch ':' ∉ h0 :: t0 := schemeValid_no_colon ⟨hne, ha, hall, hlow⟩
  have hsf := splitFirst_append (b := r) hnc
  simp only [List.headD_cons] at ha
  unfold splitScheme
  rw [List.cons_append] at hsf ⊢
  rw [hsf]
  simp only [ha, hall, Bool.and_self, if_true, Bool.true_and]
  rw [show lowerS (h0 :: t0) = h0 :: t0 from hlow]

lemma splitScheme_head_not_alpha {v : Str} (h : isAsciiAlphaB (v.headD 0) = false) :
    splitScheme v = ([], v) := by
  unfold splitScheme
  rcases hsp : splitFirst (ch ':') v with ⟨p, o⟩
  cases o with
  | none => cases p <;> rfl
  | some b =>
    cases p with
    | nil => rfl
    | cons h0 pre =>
      have hrec := splitFirst_some_recon (l := v) (b := b) (by rw [hsp])
      rw [hsp] at hrec
      have hh0 : v.headD 0 = h0 := by
        rw [hrec.1]
        rfl
      rw [hh0] at h
      simp [h]

lemma splitScheme_fst_or (v : Str) :
    (splitScheme v).1 = [] ∨ SchemeValid (splitScheme v).1 := by
  unfold splitScheme
  split
  · split
    · rename_i h0 pre rest heq hg
      simp only [Bool.and_eq_true] at hg
      refine Or.inr ⟨by simp [lowerS], ?_, ?_, lowerS_idem _⟩
      · rw [lowerS_cons, List.headD_cons, lowerN_alpha]
        exact hg.1
      · exact lowerS_all_scheme hg.2
    · exact Or.inl rfl
  · exact Or.inl rfl

lemma splitScheme_eq_or (v : Str) :
    splitScheme v = ([], v) ∨ (splitScheme v).1 ≠ [] := by
  unfold splitScheme
  split
  · split
    · right
      simp [lowerS]
    · left
      rfl
  · left
    rfl

lemma splitScheme_not_found {v : Str} (h : (splitScheme v).1 = []) :
    splitScheme v = ([], v) := by
  rcases splitScheme_eq_or v with he | hne
  · exact he
  · exact absurd h hne

lemma splitScheme_found_iff (v : Str) :
    (splitScheme v).1 ≠ [] ↔ ∃ a b, v = a ++ ch ':' :: b ∧ a ≠ [] ∧
      isAsciiAlphaB (a.headD 0) = true ∧ a.all isSchemeCharB = true := by
  constructor
  · intro h
    unfold splitScheme at h
    split at h
    · rename_i h0 pre rest heq
      split at h
      · rename_i hg
        have hrec := splitFirst_some_recon (l := v) (b := rest) (by rw [heq])
        rw [heq] at hrec
        simp only [Bool.and_eq_true] at hg
        exact ⟨h0 :: pre, rest, hrec.1, by simp, by simpa using hg.1, hg.2⟩
      · simp at h
    · simp at h
  · rintro ⟨a, b, rfl, hne, ha, hall⟩
    have hnc : ch ':' ∉ a := by
      intro hm
      exact schemeChar_ne_colon (List.all_eq_true.mp hall _ hm) rfl
    obtain ⟨h0, t0, rfl⟩ := List.exists_cons_of_ne_nil hne
    have hsf := splitFirst_append (b := b) hnc
    unfold splitScheme
    rw [List.cons_append] at hsf ⊢
    rw [hsf]
    simp only [List.headD_cons] at ha
    simp [ha, hall, lowerS]

lemma isSchemeCharB_63 : isSchemeCharB 63 = false := by decide

/-- Transfer of scheme-freeness: when the concatenation of a path-like part
and an optional query tail has no extractable scheme, it still has none
after the path part is stripped of trailing slashes and lower-cased. -/
lemma noscheme_lower_rstrip {x tail : Str}
    (htail : tail = [] ∨ ∃ q, tail = ch '?' :: q)
    (h : (splitScheme (x ++ tail)).1 = []) :
    splitScheme (lowerS (rstripSlash x) ++ tail) = ([], lowerS (rstripSlash x) ++ tail) := by
  apply splitScheme_not_found
  by_contra hf
  obtain ⟨a, b, heq, hane, haal, hall⟩ := (splitScheme_found_iff _).mp hf
  have hx : (splitScheme (x ++ tail)).1 ≠ [] := by
    rw [splitScheme_found_iff]
    rcases List.append_eq_append_iff.mp heq with ⟨m, hm1, hm2⟩ | ⟨m, hm1, hm2⟩
    · -- a extends past the lowered path into the tail
      exfalso
      rcases htail with rfl | ⟨q, rfl⟩
      · simp at hm2
      · cases m with
        | nil =>
          simp at hm2
          rw [ch_query, ch_colon] at hm2
          omega
        | cons m0 m1 =>
          have hq : m0 = ch '?' := by
            rw [List.cons_append] at hm2
            have h1 : ch '?' = m0 := by injection hm2
            exact h1.symm
          have hmem : m0 ∈ a := by
            rw [hm1]
            exact List.mem_append_right _ (List.mem_cons_self m0 m1)
          have := List.all_eq_true.mp hall _ hmem
          rw [hq, ch_query] at this
          rw [isSchemeCharB_63] at this
          exact Bool.false_ne_true this
    · -- the colon is inside the lowered path
      cases m with
      | nil =>
        exfalso
        rcases htail with rfl | ⟨q, rfl⟩
        · simp at hm2
        · rw [List.nil_append] at hm2
          have h1 : ch ':' = ch '?' := by injection hm2
          rw [ch_colon, ch_query] at h1
          omega
      | cons m0 m1 =>
        have hm0 : ch ':' = m0 ∧ b = m1 ++ tail := by
          rw [List.cons_append] at hm2
          exact ⟨by injection hm2, by injection hm2⟩
        obtain ⟨hm0e, _⟩ := hm0
        rw [← hm0e] at hm1
        -- hm1 : lowerS (rstripSlash x) = a ++ ch ':' :: m1
        obtain ⟨k, hk⟩ := rstrip_decomp x
        have ht : (lowerS (rstripSlash x)).take a.length = a := by
          rw [hm1]
          exact List.take_left a _
        have hla : lowerS ((rstripSlash x).take a.length) = a := by
          rw [← lowerS_take]
          exact ht
        have hld : lowerS ((rstripSlash x).drop a.length) = ch ':' :: m1 := by
          have e1 : (lowerS (rstripSlash x)).drop a.length = ch ':' :: m1 := by
            rw [hm1]
            exact List.drop_left a _
          have e2 : lowerS ((rstripSlash x).drop a.length) =
              (lowerS (rstripSlash x)).drop a.length := by
            simp [lowerS, List.map_drop]
          rw [e2, e1]
        cases hd : (rstripSlash x).drop a.length with
        | nil => rw [hd, lowerS_nil] at hld; exact absurd hld (by simp)
        | cons d0 d1 =>
          rw [hd, lowerS_cons] at hld
          have hd0 : d0 = ch ':' := by
            have h1 : lowerN d0 = ch ':' := by injection hld
            rw [ch_colon] at h1 ⊢
            exact (lowerN_eq_low (by omega)).mp h1
          have ha0ne : (rstripSlash x).take a.length ≠ [] := by
            intro he
            rw [he, lowerS_nil] at hla
            exact hane hla.symm
          have e3 : rstripSlash x = (rstripSlash x).take a.length ++ ch ':' :: d1 := by
            conv_lhs => rw [← List.take_append_drop a.length (rstripSlash x)]
            rw [hd, hd0]
          refine ⟨(rstripSlash x).take a.length,
            d1 ++ List.replicate k (ch '/') ++ tail, ?_, ha0ne, ?_, ?_⟩
          · conv_lhs => rw [hk, e3]
            simp
          · obtain ⟨h0, t0, he0⟩ := List.exists_cons_of_ne_nil ha0ne
            rw [he0, List.headD_cons]
            rw [he0, lowerS_cons] at hla
            have h2 : a.headD 0 = lowerN h0 := by
              rw [← hla]
              rfl
            rw [h2, lowerN_alpha] at haal
            exact haal
          · rw [List.all_eq_true]
            intro c hc
            have hmem : lowerN c ∈ a := by
              rw [← hla]
              exact mem_lowerS.mpr ⟨c, hc, rfl⟩
            have h3 := List.all_eq_true.mp hall _ hmem
            rwa [lowerN_scheme] at h3
  exact hx h

/-! ### urlsplit and urlunsplit computation lemmas -/

/-- The query tail urlunsplit appends: nothing for an empty query. -/
def qpart (q : Str) : Str := if q = [] then [] else ch '?' :: q

lemma schemeFound_append_right {p z : Str} (h : (splitScheme p).1 ≠ []) :
    (splitScheme (p ++ z)).1 ≠ [] := by
  rw [splitScheme_found_iff] at h ⊢
  obtain ⟨a, b, rfl, hne, ha, hall⟩ := h
  exact ⟨a, b ++ z, by simp, hne, ha, hall⟩

lemma urlsplit_eq_of_split {v s0 r0 : Str} (hs : splitScheme v = (s0, r0)) :
    urlsplit v =
      ⟨s0,
       (if r0.take 2 = [ch '/', ch '/'] then splitNetloc (r0.drop 2) else ([], r0)).1,
       (match splitFirst (ch '?')
          (match splitFirst (ch '#')
            (if r0.take 2 = [ch '/', ch '/'] then splitNetloc (r0.drop 2) else ([], r0)).2 with
           | (a, some f) => (a, f)
           | (a, none) => (a, ([] : Str))).1 with
        | (a, some q) => (a, q)
        | (a, none) => (a, ([] : Str))).1,
       (match splitFirst (ch '?')
          (match splitFirst (ch '#')
            (if r0.take 2 = [ch '/', ch '/'] then splitNetloc (r0.drop 2) else ([], r0)).2 with
           | (a, some f) => (a, f)
           | (a, none) => (a, ([] : Str))).1 with
        | (a, some q) => (a, q)
        | (a, none) => (a, ([] : Str))).2,
       (match splitFirst (ch '#')
          (if r0.take 2 = [ch '/', ch '/'] then splitNetloc (r0.drop 2) else ([], r0)).2 with
        | (a, some f) => (a, f)
        | (a, none) => (a, ([] : Str))).2⟩ := by
  unfold urlsplit
  rw [hs]

lemma frag_split_none {z : Str} (h : ch '#' ∉ z) :
    (match splitFirst (ch '#') z with
      | (a, some f) => (a, f)
      | (a, none) => (a, ([] : Str))) = (z, []) := by
  rw [splitFirst_not_mem h]

lemma query_split_qpart {p : Str} (q : Str) (hp : ch '?' ∉ p) :
    (match splitFirst (ch '?') (p ++ qpart q) with
      | (a, some qq) => (a, qq)
      | (a, none) => (a, ([] : Str))) = (p, q) := by
  unfold qpart
  by_cases hq : q = []
  · subst hq
    rw [if_pos rfl, List.append_nil, splitFirst_not_mem hp]
  · rw [if_neg hq, splitFirst_append (b := q) hp]

lemma splitNetloc_append {n rest : Str} (hn : ∀ c ∈ n, isNetlocDelim c = false)
    (hrest : ∀ c t, rest = c :: t → isNetlocDelim c = true) :
    splitNetloc (n ++ rest) = (n, rest) := by
  unfold splitNetloc
  have h := takeWhile_append_all (p := fun c => !isNetlocDelim c)
    (fun c hc => by simp only []; rw [hn c hc]; rfl)
    (fun c t he => by simp only []; rw [hrest c t he]; rfl)
  rw [h.1, h.2]

lemma qpart_no_hash {q : Str} (h : ch '#' ∉ q) : ch '#' ∉ qpart q := by
  unfold qpart
  split
  · simp
  · intro hm
    rcases List.mem_cons.mp hm with he | hm2
    · rw [ch_hash, ch_query] at he
      omega
    · exact h hm2

lemma qpart_head_delim (q : Str) : ∀ c t, qpart q = c :: t → isNetlocDelim c = true := by
  unfold qpart
  split
  · intro c t h
    simp at h
  · intro c t h
    have he : ch '?' = c := by injection h
    rw [← he, isNetlocDelim_iff, ch_query]
    omega

/-- The fragment/query splitting step of urlsplit, as a function: the part
before the first occurrence of d, and the part after it ([] when absent). -/
def fsplit (d : Nat) (z : Str) : Str × Str :=
  match splitFirst d z with
  | (a, some f) => (a, f)
  | (a, none) => (a, [])

/-- The netloc extraction step of urlsplit: behind two leading slashes the
netloc runs to the first delimiter, otherwise there is none. -/
def netpart (r : Str) : Str × Str :=
  if r.take 2 = [ch '/', ch '/'] then splitNetloc (r.drop 2) else ([], r)

lemma urlsplit_alt (v : Str) : urlsplit v =
    ⟨(splitScheme v).1, (netpart (splitScheme v).2).1,
     (fsplit (ch '?') (fsplit (ch '#') (netpart (splitScheme v).2).2).1).1,
     (fsplit (ch '?') (fsplit (ch '#') (netpart (splitScheme v).2).2).1).2,
     (fsplit (ch '#') (netpart (splitScheme v).2).2).2⟩ := rfl

lemma splitFirst_fst_no (d : Nat) : ∀ (l : Str), d ∉ (splitFirst d l).1 := by
  intro l
  induction l with
  | nil => simp [splitFirst]
  | cons c t ih =>
    by_cases hc : c = d
    · subst hc
      rw [splitFirst_cons_eq]
      simp
    · rw [splitFirst_cons_ne d c t hc]
      intro hm
      rcases List.mem_cons.mp hm with he | h2
      · exact hc he.symm
      · exact ih h2

lemma splitFirst_fst_head (d : Nat) : ∀ (l : Str),
    (splitFirst d l).1 = [] ∨ (splitFirst d l).1.headD 0 = l.headD 0 := by
  intro l
  cases l with
  | nil => exact Or.inl rfl
  | cons c t =>
    by_cases hc : c = d
    · subst hc
      rw [splitFirst_cons_eq]
      exact Or.inl rfl
    · rw [splitFirst_cons_ne d c t hc]
      exact Or.inr rfl

lemma fsplit_fst (d : Nat) (z : Str) : (fsplit d z).1 = (splitFirst d z).1 := by
  unfold fsplit
  rcases h : splitFirst d z with ⟨a, o⟩
  cases o <;> rfl

lemma fsplit_fst_no (d : Nat) (z : Str) : d ∉ (fsplit d z).1 := by
  rw [fsplit_fst]
  exact splitFirst_fst_no d z

lemma fsplit_fst_sub (d : Nat) (z : Str) : ∀ c ∈ (fsplit d z).1, c ∈ z := by
  rw [fsplit_fst]
  exact splitFirst_fst_sub d z

lemma fsplit_fst_head (d : Nat) (z : Str) :
    (fsplit d z).1 = [] ∨ (fsplit d z).1.headD 0 = z.headD 0 := by
  rw [fsplit_fst]
  exact splitFirst_fst_head d z

lemma fsplit_snd_sub (d : Nat) (z : Str) : ∀ c ∈ (fsplit d z).2, c ∈ z := by
  unfold fsplit
  rcases h : splitFirst d z with ⟨a, o⟩
  cases o with
  | none =>
    intro c hc
    simp at hc
  | some b =>
    intro c hc
    exact splitFirst_snd_sub (by rw [h]) c hc

lemma fsplit_no {d : Nat} {z : Str} (h : d ∉ z) : fsplit d z = (z, []) := by
  unfold fsplit
  rw [splitFirst_not_mem h]

lemma fsplit_cases (d : Nat) (z : Str) :
    fsplit d z = (z, []) ∨ z = (fsplit d z).1 ++ d :: (fsplit d z).2 := by
  unfold fsplit
  rcases h : splitFirst d z with ⟨a, o⟩
  cases o with
  | none =>
    left
    have hr := splitFirst_none_recon (l := z) (by rw [h])
    have ha : a = z := by
      have h1 := hr.1
      rw [h] at h1
      exact h1
    rw [ha]
  | some b =>
    right
    have hr := splitFirst_some_recon (l := z) (b := b) (by rw [h])
    rw [h] at hr
    exact hr.1

lemma netpart_not_taken {r : Str} (h : r.take 2 ≠ [ch '/', ch '/']) : netpart r = ([], r) := by
  unfold netpart
  rw [if_neg h]

lemma netpart_fst_clean (r : Str) : ∀ c ∈ (netpart r).1, isNetlocDelim c = false := by
  unfold netpart splitNetloc
  split
  · intro c hc
    have := List.mem_takeWhile_imp hc
    simpa using this
  · intro c hc
    simp at hc

lemma netpart_fst_sub (r : Str) : ∀ c ∈ (netpart r).1, c ∈ r := by
  unfold netpart splitNetloc
  split
  · intro c hc
    exact List.drop_subset 2 r ((List.takeWhile_sublist _).subset hc)
  · intro c hc
    simp at hc

lemma netpart_snd_sub (r : Str) : ∀ c ∈ (netpart r).2, c ∈ r := by
  unfold netpart splitNetloc
  split
  · intro c hc
    exact List.drop_subset 2 r ((List.dropWhile_sublist _).subset hc)
  · intro c hc
    exact hc

lemma netpart_fst_ne_taken {r : Str} (h : (netpart r).1 ≠ []) :
    r.take 2 = [ch '/', ch '/'] := by
  by_contra hc
  rw [netpart_not_taken hc] at h
  exact h rfl

lemma netpart_taken_snd_head {r : Str} (h : r.take 2 = [ch '/', ch '/']) :
    (netpart r).2 = [] ∨ isNetlocDelim ((netpart r).2.headD 0) = true := by
  unfold netpart splitNetloc
  rw [if_pos h]
  show (r.drop 2).dropWhile (fun c => !isNetlocDelim c) = [] ∨
    isNetlocDelim (((r.drop 2).dropWhile (fun c => !isNetlocDelim c)).headD 0) = true
  cases hdw : (r.drop 2).dropWhile (fun c => !isNetlocDelim c) with
  | nil => exact Or.inl rfl
  | cons d dt =>
    right
    have hd : (fun c => !isNetlocDelim c) d = false :=
      head_dropWhile_false (show ((r.drop 2).dropWhile
        (fun c => !isNetlocDelim c)).head? = some d by rw [hdw]; rfl)
    rw [List.headD_cons]
    simpa using hd

lemma urlsplit_scheme_or (v : Str) :
    (urlsplit v).scheme = [] ∨ SchemeValid (urlsplit v).scheme := by
  rw [urlsplit_alt]
  exact splitScheme_fst_or v

lemma splitScheme_snd_sub (v : Str) : ∀ c ∈ (splitScheme v).2, c ∈ v := by
  unfold splitScheme
  rcases h : splitFirst (ch ':') v with ⟨a, o⟩
  cases o with
  | none =>
    cases a <;> intro c hc <;> exact hc
  | some b =>
    cases a with
    | nil =>
      intro c hc
      exact hc
    | cons a0 at0 =>
      show ∀ c ∈ (if isAsciiAlphaB a0 && (a0 :: at0).all isSchemeCharB then
        (lowerS (a0 :: at0), b) else (([] : Str), v)).2, c ∈ v
      split
      · intro c hc
        exact splitFirst_snd_sub (by rw [h]) c hc
      · intro c hc
        exact hc

lemma urlsplit_netloc_clean (v : Str) :
    ∀ c ∈ (urlsplit v).netloc, isNetlocDelim c = false := by
  rw [urlsplit_alt]
  exact netpart_fst_clean _

lemma urlsplit_netloc_sub (v : Str) : ∀ c ∈ (urlsplit v).netloc, c ∈ v := by
  rw [urlsplit_alt]
  intro c hc
  exact splitScheme_snd_sub v _ (netpart_fst_sub _ _ hc)

lemma urlsplit_path_no_query (v : Str) : ch '?' ∉ (urlsplit v).path := by
  rw [urlsplit_alt]
  exact fsplit_fst_no _ _

lemma urlsplit_path_no_hash (v : Str) : ch '#' ∉ (urlsplit v).path := by
  rw [urlsplit_alt]
  intro hm
  exact fsplit_fst_no (ch '#') _ (fsplit_fst_sub _ _ _ hm)

lemma urlsplit_path_sub (v : Str) : ∀ c ∈ (urlsplit v).path, c ∈ v := by
  rw [urlsplit_alt]
  intro c hc
  exact splitScheme_snd_sub v _ (netpart_snd_sub _ _
    (fsplit_fst_sub _ _ _ (fsplit_fst_sub _ _ _ hc)))

lemma urlsplit_query_no_hash (v : Str) : ch '#' ∉ (urlsplit v).query := by
  rw [urlsplit_alt]
  intro hm
  exact fsplit_fst_no (ch '#') _ (fsplit_snd_sub _ _ _ hm)

lemma urlsplit_query_sub (v : Str) : ∀ c ∈ (urlsplit v).query, c ∈ v := by
  rw [urlsplit_alt]
  intro c hc
  exact splitScheme_snd_sub v _ (netpart_snd_sub _ _
    (fsplit_fst_sub _ _ _ (fsplit_snd_sub _ _ _ hc)))

lemma urlsplit_frag_empty (v : Str) (h : ch '#' ∉ v) : (urlsplit v).fragment = [] := by
  rw [urlsplit_alt]
  have hn : ch '#' ∉ (netpart (splitScheme v).2).2 :=
    fun hm => h (splitScheme_snd_sub v _ (netpart_snd_sub _ _ hm))
  rw [fsplit_no hn]

lemma qpart_head_not_alpha (q : Str) : isAsciiAlphaB ((qpart q).headD 0) = false := by
  unfold qpart
  split
  · decide
  · rw [List.headD_cons]
    decide

/-- Behind a double slash, a nonempty parsed path begins with a slash: its
head is the first netloc delimiter, and the path holds no ? or #. -/
lemma path_head_taken (v : Str) (hc : (splitScheme v).2.take 2 = [ch '/', ch '/']) :
    (urlsplit v).path = [] ∨ (urlsplit v).path.headD 0 = ch '/' := by
  rw [urlsplit_alt]
  cases hp : (fsplit (ch '?') (fsplit (ch '#') (netpart (splitScheme v).2).2).1).1 with
  | nil => exact Or.inl rfl
  | cons c0 ct =>
    right
    rw [List.headD_cons]
    have hmem : c0 ∈ (fsplit (ch '?') (fsplit (ch '#') (netpart (splitScheme v).2).2).1).1 := by
      rw [hp]
      exact List.mem_cons_self _ _
    have hm1 : c0 ∈ (fsplit (ch '#') (netpart (splitScheme v).2).2).1 :=
      fsplit_fst_sub _ _ _ hmem
    have hm2 : c0 ∈ (netpart (splitScheme v).2).2 :=
      fsplit_fst_sub _ _ _ hm1
    have hh1 : (fsplit (ch '#') (netpart (splitScheme v).2).2).1 ≠ [] := by
      intro he
      rw [he] at hm1
      simp at hm1
    have hh2 : (netpart (splitScheme v).2).2 ≠ [] := by
      intro he
      rw [he] at hm2
      simp at hm2
    have he1 : (fsplit (ch '?') (fsplit (ch '#') (netpart (splitScheme v).2).2).1).1.headD 0 =
        (fsplit (ch '#') (netpart (splitScheme v).2).2).1.headD 0 := by
      rcases fsplit_fst_head (ch '?') (fsplit (ch '#') (netpart (splitScheme v).2).2).1 with he | he
      · rw [he] at hp
        exact absurd hp (by simp)
      · exact he
    have he2 : (fsplit (ch '#') (netpart (splitScheme v).2).2).1.headD 0 =
        (netpart (splitScheme v).2).2.headD 0 := by
      rcases fsplit_fst_head (ch '#') (netpart (splitScheme v).2).2 with he | he
      · exact absurd he hh1
      · exact he
    have hpc : (fsplit (ch '?') (fsplit (ch '#') (netpart (splitScheme v).2).2).1).1.headD 0 =
        c0 := by
      rw [hp, List.headD_cons]
    have hc0n : c0 = (netpart (splitScheme v).2).2.headD 0 := by
      rw [← hpc, he1, he2]
    have hc0 : isNetlocDelim c0 = true := by
      rw [hc0n]
      rcases netpart_taken_snd_head hc with he | he
      · exact absurd he hh2
      · exact he
    rcases (isNetlocDelim_iff c0).mp hc0 with h | h | h
    · rw [ch_slash]
      exact h
    · exact absurd hmem (by
        rw [show c0 = ch '?' from by rw [ch_query]; exact h]
        exact fsplit_fst_no _ _)
    · exact absurd hm1 (by
        rw [show c0 = ch '#' from by rw [ch_hash]; exact h]
        exact fsplit_fst_no _ _)

lemma urlsplit_netloc_path_shape (v : Str) (h : (urlsplit v).netloc ≠ []) :
    (urlsplit v).path = [] ∨ (urlsplit v).path.headD 0 = ch '/' := by
  apply path_head_taken
  apply netpart_fst_ne_taken
  rw [urlsplit_alt] at h
  exact h

/-- When a hash-free URL parses with no scheme and no netloc, either the
path begins with a slash (the double-slash case) or the rejoined
path-plus-query text again yields no scheme. -/
lemma urlsplit_noscheme_split (v : Str) (hhash : ch '#' ∉ v)
    (hs : (urlsplit v).scheme = []) (_hn : (urlsplit v).netloc = []) :
    (splitScheme ((urlsplit v).path ++ qpart (urlsplit v).query)).1 = [] ∨
      (urlsplit v).path.headD 0 = ch '/' := by
  have hsp : splitScheme v = ([], v) := by
    apply splitScheme_not_found
    rw [urlsplit_alt] at hs
    exact hs
  by_cases hc : (splitScheme v).2.take 2 = [ch '/', ch '/']
  · rcases path_head_taken v hc with he | he
    · left
      rw [he, List.nil_append]
      rw [splitScheme_head_not_alpha (qpart_head_not_alpha _)]
    · exact Or.inr he
  · left
    have hc2 : ¬ v.take 2 = [ch '/', ch '/'] := fun he => hc (by rw [hsp]; exact he)
    have hn2v : (netpart (splitScheme v).2).2 = v := by
      rw [hsp]
      rw [netpart_not_taken hc2]
    have hfs : fsplit (ch '#') v = (v, []) := fsplit_no hhash
    have hfs1 : (fsplit (ch '#') v).1 = v := by
      rw [hfs]
    have hpath : (urlsplit v).path = (fsplit (ch '?') v).1 := by
      rw [urlsplit_alt, hn2v, hfs1]
    have hquery : (urlsplit v).query = (fsplit (ch '?') v).2 := by
      rw [urlsplit_alt, hn2v, hfs1]
    rw [hpath, hquery]
    have hv1 : (splitScheme v).1 = [] := by
      rw [hsp]
    rcases fsplit_cases (ch '?') v with hq | hq
    · rw [hq]
      rw [show (((v, ([] : Str)) : Str × Str)).1 = v from rfl,
        show (((v, ([] : Str)) : Str × Str)).2 = ([] : Str) from rfl]
      rw [show qpart ([] : Str) = [] from rfl, List.append_nil]
      exact hv1
    · by_cases hB : (fsplit (ch '?') v).2 = []
      · rw [hB, show qpart ([] : Str) = [] from rfl, List.append_nil]
        by_contra hne
        have h2 := schemeFound_append_right (z := [ch '?']) hne
        rw [hB] at hq
        apply h2
        rw [← hq]
        exact hv1
      · rw [show qpart (fsplit (ch '?') v).2 = ch '?' :: (fsplit (ch '?') v).2 from by
          unfold qpart
          rw [if_neg hB]]
        rw [← hq]
        exact hv1

lemma lowerN_slash : lowerN (ch '/') = ch '/' := by decide

lemma dropWhile_slash_lowerS : ∀ (l : Str),
    (lowerS l).dropWhile (fun c => c = ch '/') = lowerS (l.dropWhile (fun c => c = ch '/')) := by
  intro l
  induction l with
  | nil => rfl
  | cons c t ih =>
    rw [lowerS_cons]
    by_cases hc : c = ch '/'
    · subst hc
      rw [lowerN_slash]
      rw [List.dropWhile_cons_of_pos (by simp), List.dropWhile_cons_of_pos (by simp)]
      exact ih
    · have hlc : ¬ lowerN c = ch '/' := by
        rw [ch_slash]
        intro he
        exact hc (by rw [ch_slash]; exact (lowerN_eq_low (by omega)).mp he)
      rw [List.dropWhile_cons_of_neg (by simpa using hlc),
        List.dropWhile_cons_of_neg (by simpa using hc)]
      rw [lowerS_cons]

lemma rstrip_lowerS (z : Str) : rstripSlash (lowerS z) = lowerS (rstripSlash z) := by
  unfold rstripSlash
  have h1 : (lowerS z).reverse = lowerS z.reverse := by
    simp [lowerS]
  rw [h1, dropWhile_slash_lowerS]
  simp [lowerS]

lemma lowerS_headD (z : Str) : (lowerS z).headD 0 = lowerN (z.headD 0) := by
  cases z with
  | nil => simp [lowerS, lowerN]
  | cons c t => rw [lowerS_cons, List.headD_cons, List.headD_cons]

lemma rstrip_headD {z : Str} (h : rstripSlash z ≠ []) :
    (rstripSlash z).headD 0 = z.headD 0 := by
  obtain ⟨k, hk⟩ := rstrip_decomp z
  obtain ⟨a, t, he⟩ := List.exists_cons_of_ne_nil h
  rw [he]
  conv_rhs => rw [hk, he]
  rw [List.cons_append, List.headD_cons, List.headD_cons]

/-- urlunsplit with empty params already folded in and an empty fragment,
in scheme-part-plus-query-tail normal form. -/
lemma urlunsplit_canon (s n u q : Str) :
    urlunsplit s n u q [] =
      (if s ≠ [] then s ++ ch ':' ::
        (if n ≠ [] ∨ (s ≠ [] ∧ s ∈ uses_netloc ∧ u.take 2 ≠ [ch '/', ch '/']) then
          ch '/' :: ch '/' :: (n ++ (if u ≠ [] ∧ u.headD 0 ≠ ch '/' then ch '/' :: u else u))
        else u)
      else
        (if n ≠ [] ∨ (s ≠ [] ∧ s ∈ uses_netloc ∧ u.take 2 ≠ [ch '/', ch '/']) then
          ch '/' :: ch '/' :: (n ++ (if u ≠ [] ∧ u.headD 0 ≠ ch '/' then ch '/' :: u else u))
        else u)) ++ qpart q := by
  unfold urlunsplit qpart
  by_cases hq : q = []
  · simp [hq]
  · simp [hq]

lemma urlunparse_canon (t : PParse) (hpar : t.params = []) (hfrag : t.fragment = []) :
    urlunparse t = urlunsplit t.scheme t.netloc t.path t.query [] := by
  unfold urlunparse
  rw [hpar, hfrag]
  simp

lemma normTransform_fix (t : PParse) (h1 : lowerS t.scheme = t.scheme)
    (h2 : lowerS t.netloc = t.netloc) (h3 : lowerS (rstripSlash t.path) = t.path) :
    normTransform t = t := by
  obtain ⟨s, n, p, a, q, f⟩ := t
  simp only [normTransform] at *
  simp_all

lemma lowerS_fix_mem : ∀ {l : Str}, lowerS l = l → ∀ c ∈ l, lowerN c = c := by
  intro l
  induction l with
  | nil => intro _ c hc; simp at hc
  | cons a t ih =>
    intro h c hc
    rw [lowerS_cons] at h
    have h1 : lowerN a = a := by injection h
    have h2 : lowerS t = t := by injection h
    rcases List.mem_cons.mp hc with rfl | hct
    · exact h1
    · exact ih h2 c hct

lemma lowerS_fix_of_mem {l : Str} (h : ∀ c ∈ l, lowerN c = c) : lowerS l = l := by
  unfold lowerS
  exact List.map_congr_left h |>.trans (List.map_id l)

lemma take2_append_ne {path z : Str} (hp : path.take 2 ≠ [ch '/', ch '/'])
    (hz : z = [] ∨ ∃ q, z = ch '?' :: q) :
    (path ++ z).take 2 ≠ [ch '/', ch '/'] := by
  intro he
  rcases path with _ | ⟨a, _ | ⟨b, rest⟩⟩
  · rcases hz with rfl | ⟨q, rfl⟩
    · exact absurd he (by simp)
    · rw [List.nil_append] at he
      have h1 : ch '?' = ch '/' := by
        have h2 : ch '?' :: q.take 1 = [ch '/', ch '/'] := by simpa using he
        injection h2
      rw [ch_query, ch_slash] at h1
      omega
  · rcases hz with rfl | ⟨q, rfl⟩
    · have h2 : ([a] : Str).take 2 = [ch '/', ch '/'] := by rw [List.append_nil] at he; exact he
      have h3 : ([a] : Str).take 2 = [a] := rfl
      rw [h3] at h2
      have h4 := congrArg List.length h2
      simp at h4
    · have h2 : a :: (ch '?' :: q).take 1 = [ch '/', ch '/'] := by simpa using he
      have h3 : (ch '?' :: q).take 1 = [ch '?'] := rfl
      rw [h3] at h2
      have h5 : ch '?' = ch '/' := by
        have h6 : ([a] ++ [ch '?'] : Str) = [ch '/'] ++ [ch '/'] := by simpa using h2
        have h7 := congrArg (fun l : Str => l.getLast?) h6
        simpa using h7
      rw [ch_query, ch_slash] at h5
      omega
  · apply hp
    have h2 : a :: b :: (rest ++ z).take 0 = [ch '/', ch '/'] := by simpa using he
    simpa using h2

lemma isAsciiAlphaB_47 : isAsciiAlphaB 47 = false := by decide

lemma path_last_ne_slash {p : Str} (h : rstripSlash p = p) : p.getLast? ≠ some (ch '/') := by
  rw [← h]
  exact rstrip_last_ne p

lemma urlparse_no_semi (v : Str) (h : ch ';' ∉ (urlsplit v).path) :
    urlparse v = ⟨(urlsplit v).scheme, (urlsplit v).netloc, (urlsplit v).path, [],
      (urlsplit v).query, (urlsplit v).fragment⟩ := by
  have hc : ¬ ((urlsplit v).scheme ∈ uses_params ∧ ch ';' ∈ (urlsplit v).path) := by
    rintro ⟨_, hcon⟩
    exact h hcon
  simp [urlparse, hc]

/-- Parse computation for strings of the shape
scheme? ++ // ++ netloc ++ path ++ query-tail, the shape urlunsplit emits
when it writes a double slash. -/
lemma urlparse_net_shape (s n p2 q : Str)
    (hs : s = [] ∨ SchemeValid s)
    (hn : ∀ c ∈ n, isNetlocDelim c = false)
    (hp2 : p2 = [] ∨ p2.headD 0 = ch '/')
    (hpq : ch '?' ∉ p2) (hph : ch '#' ∉ p2) (hpsemi : ch ';' ∉ p2)
    (hqh : ch '#' ∉ q) :
    urlparse ((if s ≠ [] then s ++ ch ':' :: (ch '/' :: ch '/' :: (n ++ p2))
               else ch '/' :: ch '/' :: (n ++ p2)) ++ qpart q) =
      ⟨s, n, p2, [], q, []⟩ := by
  have hsplit : splitScheme ((if s ≠ [] then s ++ ch ':' :: (ch '/' :: ch '/' :: (n ++ p2))
      else ch '/' :: ch '/' :: (n ++ p2)) ++ qpart q) =
      (s, ch '/' :: ch '/' :: ((n ++ p2) ++ qpart q)) := by
    by_cases hse : s = []
    · subst hse
      rw [if_neg (by simp)]
      have := splitScheme_head_not_alpha
        (v := (ch '/' :: ch '/' :: (n ++ p2)) ++ qpart q)
        (by rw [List.cons_append, List.headD_cons, ch_slash]; exact isAsciiAlphaB_47)
      rw [this]
      simp
    · rw [if_pos hse]
      have hv : SchemeValid s := hs.resolve_left hse
      have e1 : (s ++ ch ':' :: (ch '/' :: ch '/' :: (n ++ p2))) ++ qpart q =
          s ++ ch ':' :: (ch '/' :: ch '/' :: ((n ++ p2) ++ qpart q)) := by
        simp
      rw [e1, splitScheme_valid _ hv]
  have hrest : ∀ c t, p2 ++ qpart q = c :: t → isNetlocDelim c = true := by
    intro c t he
    rcases hp2 with rfl | hh
    · rw [List.nil_append] at he
      exact qpart_head_delim q c t he
    · cases p2 with
      | nil => exact qpart_head_delim q c t (by simpa using he)
      | cons p0 pt =>
        rw [List.headD_cons] at hh
        have : p0 = c := by
          rw [List.cons_append] at he
          injection he
        rw [← this, hh, isNetlocDelim_iff, ch_slash]
        omega
  have hhash : ch '#' ∉ p2 ++ qpart q := by
    intro hm
    rcases List.mem_append.mp hm with hm1 | hm2
    · exact hph hm1
    · exact qpart_no_hash hqh hm2
  have e2 : urlsplit ((if s ≠ [] then s ++ ch ':' :: (ch '/' :: ch '/' :: (n ++ p2))
      else ch '/' :: ch '/' :: (n ++ p2)) ++ qpart q) = ⟨s, n, p2, q, []⟩ := by
    unfold urlsplit
    rw [hsplit]
    have ht2 : (ch '/' :: ch '/' :: ((n ++ p2) ++ qpart q)).take 2 = [ch '/', ch '/'] := rfl
    have hd2 : (ch '/' :: ch '/' :: ((n ++ p2) ++ qpart q)).drop 2 = n ++ (p2 ++ qpart q) := by
      simp
    simp only [ht2, if_pos, hd2, if_true]
    rw [splitNetloc_append hn hrest]
    simp only
    rw [frag_split_none hhash]
    simp only
    rw [query_split_qpart q hpq]
  rw [urlparse_no_semi _ (by rw [e2]; exact hpsemi), e2]

/-- Parse computation for strings of the shape scheme? ++ path ++ query-tail
with no netloc and a path that does not begin with a double slash. -/
lemma urlparse_plain_shape (s p q : Str)
    (hs : s = [] ∨ SchemeValid s)
    (htake : p.take 2 ≠ [ch '/', ch '/'])
    (hnosch : s = [] → (splitScheme (p ++ qpart q)).1 = [])
    (hpq : ch '?' ∉ p) (hph : ch '#' ∉ p) (hpsemi : ch ';' ∉ p)
    (hqh : ch '#' ∉ q) :
    urlparse ((if s ≠ [] then s ++ ch ':' :: p else p) ++ qpart q) =
      ⟨s, [], p, [], q, []⟩ := by
  have hsplit : splitScheme ((if s ≠ [] then s ++ ch ':' :: p else p) ++ qpart q) =
      (s, p ++ qpart q) := by
    by_cases hse : s = []
    · subst hse
      rw [if_neg (by simp)]
      rw [splitScheme_not_found (hnosch rfl)]
    · rw [if_pos hse]
      have hv : SchemeValid s := hs.resolve_left hse
      have e1 : (s ++ ch ':' :: p) ++ qpart q = s ++ ch ':' :: (p ++ qpart q) := by simp
      rw [e1, splitScheme_valid _ hv]
  have htake2 : (p ++ qpart q).take 2 ≠ [ch '/', ch '/'] := by
    apply take2_append_ne htake
    unfold qpart
    split
    · exact Or.inl rfl
    · exact Or.inr ⟨q, rfl⟩
  have hhash : ch '#' ∉ p ++ qpart q := by
    intro hm
    rcases List.mem_append.mp hm with hm1 | hm2
    · exact hph hm1
    · exact qpart_no_hash hqh hm2
  have e2 : urlsplit ((if s ≠ [] then s ++ ch ':' :: p else p) ++ qpart q) =
      ⟨s, [], p, q, []⟩ := by
    unfold urlsplit
    rw [hsplit]
    simp only [if_neg htake2]
    rw [frag_split_none hhash]
    simp only
    rw [query_split_qpart q hpq]
  rw [urlparse_no_semi _ (by rw [e2]; exact hpsemi), e2]

/-- Re-normalizing the output of the normalizer's rebuild step is the
identity, for canonical parse records: empty params and fragment, valid
lower-cased scheme, clean lower-cased netloc, clean lower-cased path with
no trailing slash and not beginning with three slashes, and a path/query
remainder free of an extractable scheme when both scheme and netloc are
absent. -/
lemma unparse_stable (s n p q : Str)
    (hsch : s = [] ∨ SchemeValid s)
    (hnc : ∀ c ∈ n, isNetlocDelim c = false)
    (hnl : lowerS n = n)
    (hpq : ch '?' ∉ p) (hph : ch '#' ∉ p) (hpsemi : ch ';' ∉ p)
    (hplow : lowerS p = p) (hprs : rstripSlash p = p)
    (hp3 : p.take 3 ≠ [ch '/', ch '/', ch '/'])
    (hqh : ch '#' ∉ q)
    (hnp : n ≠ [] → p = [] ∨ p.headD 0 = ch '/')
    (hnosch : s = [] → n = [] → p.take 2 ≠ [ch '/', ch '/'] →
      (splitScheme (p ++ qpart q)).1 = []) :
    urlunparse (normTransform (urlparse (urlunparse ⟨s, n, p, [], q, []⟩))) =
      urlunparse ⟨s, n, p, [], q, []⟩ := by
  have hslow : lowerS s = s := by
    rcases hsch with rfl | hv
    · rfl
    · exact hv.2.2.2
  have hv : urlunparse ⟨s, n, p, [], q, []⟩ =
      (if s ≠ [] then s ++ ch ':' ::
        (if n ≠ [] ∨ (s ≠ [] ∧ s ∈ uses_netloc ∧ p.take 2 ≠ [ch '/', ch '/']) then
          ch '/' :: ch '/' :: (n ++ (if p ≠ [] ∧ p.headD 0 ≠ ch '/' then ch '/' :: p else p))
        else p)
      else
        (if n ≠ [] ∨ (s ≠ [] ∧ s ∈ uses_netloc ∧ p.take 2 ≠ [ch '/', ch '/']) then
          ch '/' :: ch '/' :: (n ++ (if p ≠ [] ∧ p.headD 0 ≠ ch '/' then ch '/' :: p else p))
        else p)) ++ qpart q :=
    (urlunparse_canon _ rfl rfl).trans (urlunsplit_canon s n p q)
  rw [hv]
  by_cases hA : n ≠ []
  · -- netloc present: exact round trip
    have hcond : (n ≠ [] ∨ (s ≠ [] ∧ s ∈ uses_netloc ∧ p.take 2 ≠ [ch '/', ch '/'])) := Or.inl hA
    have hinner : (if p ≠ [] ∧ p.headD 0 ≠ ch '/' then ch '/' :: p else p) = p := by
      rcases hnp hA with rfl | hh
      · rw [if_neg]
        simp
      · rw [if_neg]
        rintro ⟨_, hcon⟩
        exact hcon hh
    rw [if_pos hcond, hinner]
    rw [urlparse_net_shape s n p q hsch hnc (hnp hA) hpq hph hpsemi hqh]
    rw [normTransform_fix _ hslow hnl (by rw [hprs, hplow])]
    rw [hv, if_pos hcond, hinner]
  · push_neg at hA
    subst hA
    by_cases hB : s ≠ [] ∧ s ∈ uses_netloc ∧ p.take 2 ≠ [ch '/', ch '/']
    · -- no netloc, scheme that uses one: the double slash is re-emitted
      have hcond : (([] : Str) ≠ [] ∨ (s ≠ [] ∧ s ∈ uses_netloc ∧ p.take 2 ≠ [ch '/', ch '/'])) :=
        Or.inr hB
      by_cases hpe : p = []
      · subst hpe
        have hin : ¬ (([] : Str) ≠ [] ∧ ([] : Str).headD 0 ≠ ch '/') := by simp
        rw [if_pos hcond, if_neg hin]
        rw [urlparse_net_shape s [] [] q hsch (by simp) (Or.inl rfl) (by simp) (by simp)
          (by simp) hqh]
        rw [normTransform_fix _ hslow rfl rfl]
        rw [hv, if_pos hcond, if_neg hin]
      · by_cases hph0 : p.headD 0 = ch '/'
        · have hin : ¬ (p ≠ [] ∧ p.headD 0 ≠ ch '/') := by
            rintro ⟨_, hcon⟩
            exact hcon hph0
          rw [if_pos hcond, if_neg hin]
          rw [urlparse_net_shape s [] p q hsch (by simp) (Or.inr hph0) hpq hph hpsemi hqh]
          rw [normTransform_fix _ hslow rfl (by rw [hprs, hplow])]
          rw [hv, if_pos hcond, if_neg hin]
        · -- a slash is prepended; the reparse keeps it and rebuilds the same string
          have hin : (p ≠ [] ∧ p.headD 0 ≠ ch '/') := ⟨hpe, hph0⟩
          rw [if_pos hcond, if_pos hin]
          obtain ⟨p0, pt, rfl⟩ := List.exists_cons_of_ne_nil hpe
          have hlast : (ch '/' :: p0 :: pt).getLast? ≠ some (ch '/') := by
            have e1 : (ch '/' :: p0 :: pt).getLast? = (p0 :: pt).getLast? := by
              rw [List.getLast?_cons_cons]
            rw [e1]
            exact path_last_ne_slash hprs
          have hshape : urlparse ((if s ≠ [] then
              s ++ ch ':' :: (ch '/' :: ch '/' :: ([] ++ ch '/' :: p0 :: pt))
              else ch '/' :: ch '/' :: ([] ++ ch '/' :: p0 :: pt)) ++ qpart q) =
              ⟨s, [], ch '/' :: p0 :: pt, [], q, []⟩ := by
            apply urlparse_net_shape s [] (ch '/' :: p0 :: pt) q hsch (by simp)
              (Or.inr (by rw [List.headD_cons]))
            · intro hm
              rcases List.mem_cons.mp hm with he | hm2
              · rw [ch_query, ch_slash] at he
                omega
              · exact hpq hm2
            · intro hm
              rcases List.mem_cons.mp hm with he | hm2
              · rw [ch_hash, ch_slash] at he
                omega
              · exact hph hm2
            · intro hm
              rcases List.mem_cons.mp hm with he | hm2
              · rw [ch_semi, ch_slash] at he
                omega
              · exact hpsemi hm2
            · exact hqh
          rw [hshape]
          have hfix : normTransform ⟨s, [], ch '/' :: p0 :: pt, [], q, []⟩ =
              ⟨s, [], ch '/' :: p0 :: pt, [], q, []⟩ := by
            apply normTransform_fix _ hslow rfl
            have e1 : rstripSlash (ch '/' :: p0 :: pt) = ch '/' :: p0 :: pt :=
              rstrip_fix hlast
            rw [e1, lowerS_cons]
            rw [show lowerN (ch '/') = ch '/' from by rw [ch_slash]; exact lowerN_low_fix (by omega)]
            rw [hplow]
          rw [hfix]
          -- rebuild: the emitted string has three slashes either way
          have hcond2 : (([] : Str) ≠ [] ∨ (s ≠ [] ∧ s ∈ uses_netloc ∧
              (ch '/' :: p0 :: pt).take 2 ≠ [ch '/', ch '/'])) := by
            refine Or.inr ⟨hB.1, hB.2.1, ?_⟩
            intro he
            apply hph0
            have h2 : p0 = ch '/' := by
              have h3 : (ch '/' :: p0 :: pt).take 2 = [ch '/', p0] := rfl
              rw [h3] at he
              have h4 : p0 = ch '/' := by
                have h5 : ([ch '/'] ++ [p0] : Str) = [ch '/'] ++ [ch '/'] := by simpa using he
                have h6 := congrArg (fun l : Str => l.getLast?) h5
                simpa using h6
              exact h4
            rw [List.headD_cons, h2]
          have hin2 : ¬ ((ch '/' :: p0 :: pt) ≠ [] ∧ (ch '/' :: p0 :: pt).headD 0 ≠ ch '/') := by
            rintro ⟨_, hcon⟩
            exact hcon (by rw [List.headD_cons])
          have hv2 : urlunparse ⟨s, [], ch '/' :: p0 :: pt, [], q, []⟩ =
              (if s ≠ [] then s ++ ch ':' ::
                (if ([] : Str) ≠ [] ∨ (s ≠ [] ∧ s ∈ uses_netloc ∧
                    (ch '/' :: p0 :: pt).take 2 ≠ [ch '/', ch '/']) then
                  ch '/' :: ch '/' :: ([] ++ (if (ch '/' :: p0 :: pt) ≠ [] ∧
                    (ch '/' :: p0 :: pt).headD 0 ≠ ch '/' then ch '/' :: (ch '/' :: p0 :: pt)
                    else ch '/' :: p0 :: pt))
                else ch '/' :: p0 :: pt)
              else
                (if ([] : Str) ≠ [] ∨ (s ≠ [] ∧ s ∈ uses_netloc ∧
                    (ch '/' :: p0 :: pt).take 2 ≠ [ch '/', ch '/']) then
                  ch '/' :: ch '/' :: ([] ++ (if (ch '/' :: p0 :: pt) ≠ [] ∧
                    (ch '/' :: p0 :: pt).headD 0 ≠ ch '/' then ch '/' :: (ch '/' :: p0 :: pt)
                    else ch '/' :: p0 :: pt))
                else ch '/' :: p0 :: pt)) ++ qpart q :=
            (urlunparse_canon _ rfl rfl).trans (urlunsplit_canon s [] (ch '/' :: p0 :: pt) q)
          rw [hv2, if_pos hcond2, if_neg hin2]
    · -- no netloc and no re-emitted slash: the path is written as is
      have hcond : ¬ (([] : Str) ≠ [] ∨ (s ≠ [] ∧ s ∈ uses_netloc ∧ p.take 2 ≠ [ch '/', ch '/'])) := by
        rintro (hc | hc)
        · exact hc rfl
        · exact hB hc
      rw [if_neg hcond]
      by_cases htk : p.take 2 = [ch '/', ch '/']
      · -- the path begins with //: reparsing migrates a segment into the netloc,
        -- but unparsing writes the very same characters back
        rcases p with _ | ⟨a, _ | ⟨b, y⟩⟩
        · exact absurd htk (by simp)
        · exact absurd htk (by simp)
        · have hab : a = ch '/' ∧ b = ch '/' := by
            have h3 : (a :: b :: y).take 2 = [a, b] := rfl
            rw [h3] at htk
            injection htk with h1 h2
            injection h2 with h2 _
            exact ⟨h1, h2⟩
          obtain ⟨rfl, rfl⟩ := hab
          have hy : y ≠ [] := by
            rintro rfl
            have hz : rstripSlash (ch '/' :: ch '/' :: ([] : Str)) = [] := by decide
            rw [hprs] at hz
            simp at hz
          obtain ⟨y0, yt, rfl⟩ := List.exists_cons_of_ne_nil hy
          have hyh : y0 ≠ ch '/' := by
            intro h0
            apply hp3
            rw [h0]
            rfl
          have hy0d : isNetlocDelim y0 = false := by
            rw [Bool.eq_false_iff]
            intro hd
            rcases (isNetlocDelim_iff y0).mp hd with h | h | h
            · exact hyh (by rw [ch_slash]; exact h)
            · exact hpq (by simp [ch_query, h])
            · exact hph (by simp [ch_hash, h])
          have happ : (y0 :: yt) =
              (y0 :: yt).takeWhile (fun c => !isNetlocDelim c) ++
              (y0 :: yt).dropWhile (fun c => !isNetlocDelim c) :=
            (List.takeWhile_append_dropWhile _ _).symm
          have hy1c : (y0 :: yt).takeWhile (fun c => !isNetlocDelim c) =
              y0 :: yt.takeWhile (fun c => !isNetlocDelim c) := by
            rw [List.takeWhile_cons_of_pos]
            simp [hy0d]
          have hmemy1 : ∀ c ∈ (y0 :: yt).takeWhile (fun c => !isNetlocDelim c),
              c ∈ ch '/' :: ch '/' :: y0 :: yt := by
            intro c hc
            exact List.mem_cons_of_mem _ (List.mem_cons_of_mem _
              ((List.takeWhile_sublist _).subset hc))
          have hmemy2 : ∀ c ∈ (y0 :: yt).dropWhile (fun c => !isNetlocDelim c),
              c ∈ ch '/' :: ch '/' :: y0 :: yt := by
            intro c hc
            exact List.mem_cons_of_mem _ (List.mem_cons_of_mem _
              ((List.dropWhile_sublist _).subset hc))
          have hlowmem : ∀ c ∈ ch '/' :: ch '/' :: y0 :: yt, lowerN c = c :=
            lowerS_fix_mem hplow
          have hy2shape : (y0 :: yt).dropWhile (fun c => !isNetlocDelim c) = [] ∨
              ((y0 :: yt).dropWhile (fun c => !isNetlocDelim c)).headD 0 = ch '/' := by
            cases hdw : (y0 :: yt).dropWhile (fun c => !isNetlocDelim c) with
            | nil => exact Or.inl rfl
            | cons d dt =>
              refine Or.inr ?_
              have hdnd : (fun c => !isNetlocDelim c) d = false :=
                head_dropWhile_false (show ((y0 :: yt).dropWhile
                  (fun c => !isNetlocDelim c)).head? = some d by rw [hdw]; rfl)
              have hdd : isNetlocDelim d = true := by
                simpa using hdnd
              have hdmem : d ∈ ch '/' :: ch '/' :: y0 :: yt := by
                apply hmemy2
                rw [hdw]
                exact List.mem_cons_self _ _
              rcases (isNetlocDelim_iff d).mp hdd with h | h | h
              · rw [List.headD_cons, ch_slash]
                exact h
              · exact absurd hdmem (by
                  intro hm
                  rcases List.mem_cons.mp hm with he | hm2
                  · rw [ch_slash] at he; omega
                  · rcases List.mem_cons.mp hm2 with he | hm3
                    · rw [ch_slash] at he; omega
                    · exact hpq (by
                        rw [ch_query, ← h]
                        exact List.mem_cons_of_mem _ (List.mem_cons_of_mem _ hm3)))
              · exact absurd hdmem (by
                  intro hm
                  rcases List.mem_cons.mp hm with he | hm2
                  · rw [ch_slash] at he; omega
                  · rcases List.mem_cons.mp hm2 with he | hm3
                    · rw [ch_slash] at he; omega
                    · exact hph (by
                        rw [ch_hash, ← h]
                        exact List.mem_cons_of_mem _ (List.mem_cons_of_mem _ hm3)))
          -- the reparse puts the non-delimiter prefix in the netloc
          have hshape2 : urlparse ((if s ≠ [] then
              s ++ ch ':' :: (ch '/' :: ch '/' :: (y0 :: yt))
              else ch '/' :: ch '/' :: (y0 :: yt)) ++ qpart q) =
              ⟨s, (y0 :: yt).takeWhile (fun c => !isNetlocDelim c),
                (y0 :: yt).dropWhile (fun c => !isNetlocDelim c), [], q, []⟩ := by
            rw [show (ch '/' :: ch '/' :: (y0 :: yt)) =
                ch '/' :: ch '/' :: ((y0 :: yt).takeWhile (fun c => !isNetlocDelim c) ++
                  (y0 :: yt).dropWhile (fun c => !isNetlocDelim c)) from by rw [← happ]]
            apply urlparse_net_shape s _ _ q hsch
            · intro c hc
              have := List.mem_takeWhile_imp hc
              simpa using this
            · exact hy2shape
            · intro hm
              exact hpq (hmemy2 _ hm)
            · intro hm
              exact hph (hmemy2 _ hm)
            · intro hm
              exact hpsemi (hmemy2 _ hm)
            · exact hqh
          rw [hshape2]
          have hy1low : lowerS ((y0 :: yt).takeWhile (fun c => !isNetlocDelim c)) =
              (y0 :: yt).takeWhile (fun c => !isNetlocDelim c) :=
            lowerS_fix_of_mem (fun c hc => hlowmem c (hmemy1 c hc))
          have hy2low : lowerS ((y0 :: yt).dropWhile (fun c => !isNetlocDelim c)) =
              (y0 :: yt).dropWhile (fun c => !isNetlocDelim c) :=
            lowerS_fix_of_mem (fun c hc => hlowmem c (hmemy2 c hc))
          have hy2rs : rstripSlash ((y0 :: yt).dropWhile (fun c => !isNetlocDelim c)) =
              (y0 :: yt).dropWhile (fun c => !isNetlocDelim c) := by
            cases hdw : (y0 :: yt).dropWhile (fun c => !isNetlocDelim c) with
            | nil => rfl
            | cons d dt =>
              apply rstrip_fix
              have h1 : (ch '/' :: ch '/' :: y0 :: yt).getLast? = (y0 :: yt).getLast? := by
                rw [List.getLast?_cons_cons, List.getLast?_cons_cons]
              have h2 : (y0 :: yt).getLast? = (d :: dt).getLast? := by
                conv_lhs => rw [happ, hdw]
                exact List.getLast?_append_cons _ d dt
              rw [← h2, ← h1]
              exact path_last_ne_slash hprs
          rw [normTransform_fix _ hslow hy1low (by rw [hy2rs, hy2low])]
          have hy1ne : (y0 :: yt).takeWhile (fun c => !isNetlocDelim c) ≠ [] := by
            rw [hy1c]
            simp
          have hinner : (if (y0 :: yt).dropWhile (fun c => !isNetlocDelim c) ≠ [] ∧
              ((y0 :: yt).dropWhile (fun c => !isNetlocDelim c)).headD 0 ≠ ch '/' then
              ch '/' :: (y0 :: yt).dropWhile (fun c => !isNetlocDelim c)
              else (y0 :: yt).dropWhile (fun c => !isNetlocDelim c)) =
              (y0 :: yt).dropWhile (fun c => !isNetlocDelim c) := by
            rcases hy2shape with he | hh
            · rw [if_neg]
              rintro ⟨hne, _⟩
              exact hne he
            · rw [if_neg]
              rintro ⟨_, hcon⟩
              exact hcon hh
          have hv3 : urlunparse ⟨s, (y0 :: yt).takeWhile (fun c => !isNetlocDelim c),
              (y0 :: yt).dropWhile (fun c => !isNetlocDelim c), [], q, []⟩ =
              (if s ≠ [] then s ++ ch ':' ::
                (if (y0 :: yt).takeWhile (fun c => !isNetlocDelim c) ≠ [] ∨
                    (s ≠ [] ∧ s ∈ uses_netloc ∧
                      ((y0 :: yt).dropWhile (fun c => !isNetlocDelim c)).take 2 ≠
                        [ch '/', ch '/']) then
                  ch '/' :: ch '/' :: ((y0 :: yt).takeWhile (fun c => !isNetlocDelim c) ++
                    (if (y0 :: yt).dropWhile (fun c => !isNetlocDelim c) ≠ [] ∧
                        ((y0 :: yt).dropWhile (fun c => !isNetlocDelim c)).headD 0 ≠ ch '/' then
                      ch '/' :: (y0 :: yt).dropWhile (fun c => !isNetlocDelim c)
                      else (y0 :: yt).dropWhile (fun c => !isNetlocDelim c)))
                else (y0 :: yt).dropWhile (fun c => !isNetlocDelim c))
              else
                (if (y0 :: yt).takeWhile (fun c => !isNetlocDelim c) ≠ [] ∨
                    (s ≠ [] ∧ s ∈ uses_netloc ∧
                      ((y0 :: yt).dropWhile (fun c => !isNetlocDelim c)).take 2 ≠
                        [ch '/', ch '/']) then
                  ch '/' :: ch '/' :: ((y0 :: yt).takeWhile (fun c => !isNetlocDelim c) ++
                    (if (y0 :: yt).dropWhile (fun c => !isNetlocDelim c) ≠ [] ∧
                        ((y0 :: yt).dropWhile (fun c => !isNetlocDelim c)).headD 0 ≠ ch '/' then
                      ch '/' :: (y0 :: yt).dropWhile (fun c => !isNetlocDelim c)
                      else (y0 :: yt).dropWhile (fun c => !isNetlocDelim c)))
                else (y0 :: yt).dropWhile (fun c => !isNetlocDelim c))) ++ qpart q :=
            (urlunparse_canon _ rfl rfl).trans (urlunsplit_canon s _ _ q)
          rw [hv3, if_pos (Or.inl hy1ne), hinner, ← happ]
      · -- plain path: the string parses back to the same components
        rw [urlparse_plain_shape s p q hsch htk (fun hse => hnosch hse rfl htk)
          hpq hph hpsemi hqh]
        rw [normTransform_fix _ hslow rfl (by rw [hprs, hplow])]
        rw [hv, if_neg hcond]

lemma urlunparse_mem (s n p q : Str) {c : Nat}
    (hc : c ∈ urlunparse ⟨s, n, p, [], q, []⟩) :
    c ∈ s ∨ c ∈ n ∨ c ∈ p ∨ c ∈ q ∨ c = ch ':' ∨ c = ch '/' ∨ c = ch '?' := by
  rw [(urlunparse_canon ⟨s, n, p, [], q, []⟩ rfl rfl).trans (urlunsplit_canon s n p q)] at hc
  rcases List.mem_append.mp hc with h | h
  · have hX : c ∈ s ∨ c = ch ':' ∨
        c ∈ (if n ≠ [] ∨ (s ≠ [] ∧ s ∈ uses_netloc ∧ p.take 2 ≠ [ch '/', ch '/']) then
          ch '/' :: ch '/' :: (n ++ (if p ≠ [] ∧ p.headD 0 ≠ ch '/' then ch '/' :: p else p))
        else p) := by
      split at h
      · rcases List.mem_append.mp h with h1 | h1
        · exact Or.inl h1
        · rcases List.mem_cons.mp h1 with rfl | h2
          · exact Or.inr (Or.inl rfl)
          · exact Or.inr (Or.inr h2)
      · exact Or.inr (Or.inr h)
    rcases hX with h1 | h1 | h1
    · tauto
    · tauto
    · split at h1
      · rcases List.mem_cons.mp h1 with rfl | h2
        · tauto
        rcases List.mem_cons.mp h2 with rfl | h3
        · tauto
        rcases List.mem_append.mp h3 with h4 | h4
        · tauto
        · split at h4
          · rcases List.mem_cons.mp h4 with rfl | h5
            · tauto
            · tauto
          · tauto
      · tauto
  · unfold qpart at h
    split at h
    · simp at h
    · rcases List.mem_cons.mp h with rfl | h2
      · tauto
      · tauto

lemma urlsplit_scheme_no {v : Str} {k : Nat} (hk : isSchemeCharB k = false) :
    k ∉ (urlsplit v).scheme := by
  intro hm
  rcases urlsplit_scheme_or v with he | hv
  · rw [he] at hm
    simp at hm
  · have := List.all_eq_true.mp hv.2.2.1 _ hm
    rw [hk] at this
    exact Bool.false_ne_true this

lemma urlparse_semi_free (v : Str) (h : ch ';' ∉ v) :
    urlparse v = ⟨(urlsplit v).scheme, (urlsplit v).netloc, (urlsplit v).path, [],
      (urlsplit v).query, (urlsplit v).fragment⟩ :=
  urlparse_no_semi v (fun hm => h (urlsplit_path_sub v _ hm))

lemma urldefrag_not_hash {u : Str} (h : ch '#' ∉ u) : urldefrag u = (u, []) := by
  unfold urldefrag
  rw [if_neg]
  simpa using h

/-- Defragmentation keeps the URL free of hashes and, for a semicolon-free
input, free of semicolons: the rebuilt URL is made of parsed components of
the input plus the joining characters : / ?. -/
lemma urldefrag_clean (u : Str) (hsemi : ch ';' ∉ u) :
    ch '#' ∉ (urldefrag u).1 ∧ ch ';' ∉ (urldefrag u).1 := by
  by_cases hu : ch '#' ∈ u
  · have hre : (urldefrag u).1 =
        urlunparse ⟨(urlsplit u).scheme, (urlsplit u).netloc, (urlsplit u).path, [],
          (urlsplit u).query, []⟩ := by
      unfold urldefrag
      rw [if_pos (by simpa using hu)]
      rw [urlparse_semi_free u hsemi]
    rw [hre]
    constructor
    · intro hm
      rcases urlunparse_mem _ _ _ _ hm with h | h | h | h | h | h | h
      · exact urlsplit_scheme_no (by decide) h
      · exact absurd (urlsplit_netloc_clean u _ h) (by decide)
      · exact urlsplit_path_no_hash u h
      · exact urlsplit_query_no_hash u h
      · exact absurd h (by decide)
      · exact absurd h (by decide)
      · exact absurd h (by decide)
    · intro hm
      rcases urlunparse_mem _ _ _ _ hm with h | h | h | h | h | h | h
      · exact urlsplit_scheme_no (by decide) h
      · exact hsemi (urlsplit_netloc_sub u _ h)
      · exact hsemi (urlsplit_path_sub u _ h)
      · exact hsemi (urlsplit_query_sub u _ h)
      · exact absurd h (by decide)
      · exact absurd h (by decide)
      · exact absurd h (by decide)
  · have he : (urldefrag u).1 = u := by
      rw [urldefrag_not_hash hu]
    rw [he]
    exact ⟨hu, hsemi⟩

/-- normalize_url written out on the parsed components of the defragmented
URL, for a semicolon-free input (the params stay empty). -/
lemma normalize_parse (u : Str) (hsemi : ch ';' ∉ u) :
    normalize_url u = urlunparse ⟨lowerS (urlsplit (urldefrag u).1).scheme,
      lowerS (urlsplit (urldefrag u).1).netloc,
      lowerS (rstripSlash (urlsplit (urldefrag u).1).path), [],
      (urlsplit (urldefrag u).1).query, []⟩ := by
  show urlunparse (normTransform (urlparse (urldefrag u).1)) = _
  rw [urlparse_semi_free _ (urldefrag_clean u hsemi).2]
  rw [urlsplit_frag_empty _ (urldefrag_clean u hsemi).1]
  rfl

lemma normalize_no_hash (u : Str) (hsemi : ch ';' ∉ u) : ch '#' ∉ normalize_url u := by
  rw [normalize_parse u hsemi]
  intro hm
  rcases urlunparse_mem _ _ _ _ hm with h | h | h | h | h | h | h
  · exact urlsplit_scheme_no (by decide) ((mem_lowerS_low (by decide)).mp h)
  · exact absurd (urlsplit_netloc_clean _ _ ((mem_lowerS_low (by decide)).mp h)) (by decide)
  · exact urlsplit_path_no_hash _ (rstrip_sub _ _ ((mem_lowerS_low (by decide)).mp h))
  · exact urlsplit_query_no_hash _ h
  · exact absurd h (by decide)
  · exact absurd h (by decide)
  · exact absurd h (by decide)

/-- Idempotence of normalize_url on semicolon-free URLs whose parsed path
does not begin with three slashes: the rebuilt URL reparses into the very
same components, which the transformation fixes. -/
lemma normalize_stable (u : Str) (hsemi : ch ';' ∉ u)
    (h3 : (urlparse (urldefrag u).1).path.take 3 ≠ [ch '/', ch '/', ch '/']) :
    normalize_url (normalize_url u) = normalize_url u := by
  have hwhash : ch '#' ∉ (urldefrag u).1 := (urldefrag_clean u hsemi).1
  have hwsemi : ch ';' ∉ (urldefrag u).1 := (urldefrag_clean u hsemi).2
  have hP3 : (urlsplit (urldefrag u).1).path.take 3 ≠ [ch '/', ch '/', ch '/'] := by
    rw [urlparse_semi_free _ hwsemi] at h3
    exact h3
  have hz : normalize_url (normalize_url u) =
      urlunparse (normTransform (urlparse (normalize_url u))) := by
    show urlunparse (normTransform (urlparse (urldefrag (normalize_url u)).1)) = _
    rw [show (urldefrag (normalize_url u)).1 = normalize_url u from by
      rw [urldefrag_not_hash (normalize_no_hash u hsemi)]]
  rw [hz, normalize_parse u hsemi]
  apply unparse_stable
  · rcases urlsplit_scheme_or (urldefrag u).1 with he | hv
    · left
      rw [he]
      rfl
    · right
      rw [hv.2.2.2]
      exact hv
  · intro c hc
    obtain ⟨c2, hc2, rfl⟩ := mem_lowerS.mp hc
    rw [lowerN_netlocDelim]
    exact urlsplit_netloc_clean _ _ hc2
  · exact lowerS_idem _
  · intro hm
    exact urlsplit_path_no_query _ (rstrip_sub _ _ ((mem_lowerS_low (by decide)).mp hm))
  · intro hm
    exact urlsplit_path_no_hash _ (rstrip_sub _ _ ((mem_lowerS_low (by decide)).mp hm))
  · intro hm
    exact hwsemi (urlsplit_path_sub _ _ (rstrip_sub _ _ ((mem_lowerS_low (by decide)).mp hm)))
  · exact lowerS_idem _
  · rw [rstrip_lowerS, rstrip_idem]
  · intro he
    rw [lowerS_take] at he
    rw [ch_slash] at he
    have h2 := lowerS_eq_slashes he
    apply rstrip_take3 hP3
    rw [ch_slash]
    exact h2
  · exact urlsplit_query_no_hash _
  · intro hne
    have hN : (urlsplit (urldefrag u).1).netloc ≠ [] := fun he => hne (by rw [he]; rfl)
    rcases urlsplit_netloc_path_shape _ hN with he | he
    · left
      rw [he]
      rfl
    · by_cases hrs : rstripSlash ((urlsplit (urldefrag u).1).path) = []
      · left
        rw [hrs]
        rfl
      · right
        rw [lowerS_headD, rstrip_headD hrs, he, lowerN_slash]
  · intro hs0 hn0 _
    have hS : (urlsplit (urldefrag u).1).scheme = [] := by
      rwa [lowerS_eq_nil_iff] at hs0
    have hN : (urlsplit (urldefrag u).1).netloc = [] := by
      rwa [lowerS_eq_nil_iff] at hn0
    rcases urlsplit_noscheme_split _ hwhash hS hN with he | he
    · have htail : qpart (urlsplit (urldefrag u).1).query = [] ∨
          ∃ q2, qpart (urlsplit (urldefrag u).1).query = ch '?' :: q2 := by
        unfold qpart
        split
        · exact Or.inl rfl
        · exact Or.inr ⟨_, rfl⟩
      rw [noscheme_lower_rstrip htail he]
    · have hna : isAsciiAlphaB ((lowerS (rstripSlash (urlsplit (urldefrag u).1).path) ++
          qpart (urlsplit (urldefrag u).1).query).headD 0) = false := by
        by_cases hrs : rstripSlash ((urlsplit (urldefrag u).1).path) = []
        · rw [hrs, show lowerS ([] : Str) = [] from rfl, List.nil_append]
          exact qpart_head_not_alpha _
        · have hne : lowerS (rstripSlash ((urlsplit (urldefrag u).1).path)) ≠ [] :=
            fun he2 => hrs ((lowerS_eq_nil_iff _).mp he2)
          obtain ⟨a, t, hat⟩ := List.exists_cons_of_ne_nil hne
          rw [hat, List.cons_append, List.headD_cons]
          have ha : a = ch '/' := by
            have h1 : (lowerS (rstripSlash ((urlsplit (urldefrag u).1).path))).headD 0 = a := by
              rw [hat, List.headD_cons]
            rw [lowerS_headD, rstrip_headD hrs, he, lowerN_slash] at h1
            exact h1.symm
          rw [ha, ch_slash]
          exact isAsciiAlphaB_47
      rw [splitScheme_head_not_alpha hna]

lemma get_next_proxy_none : get_next_proxy = none := rfl

/-- Did one render attempt return a successful result. -/
def attOk : AttemptOutcome → Bool
  | .res r => r.success
  | .err => false

lemma runRetries_all_fail (att : Nat → AttemptOutcome) :
    ∀ maxR i, (∀ j, j < maxR → attOk (att (i + j)) = false) →
      runRetries att i maxR = (none, maxR, List.replicate maxR none) := by
  intro maxR
  induction maxR with
  | zero => intro i _; rfl
  | succ m ih =>
    intro i h
    have h0 : attOk (att i) = false := by simpa using h 0 (Nat.succ_pos m)
    have hrest : runRetries att (i + 1) m = (none, m, List.replicate m none) := by
      apply ih
      intro j hj
      have := h (j + 1) (by omega)
      simpa [Nat.add_assoc, Nat.add_comm 1 j] using this
    cases hatt : att i with
    | res r =>
      have hs : r.success = false := by simpa [attOk, hatt] using h0
      simp [runRetries, hatt, hs, hrest, get_next_proxy_none, List.replicate_succ]
    | err =>
      simp [runRetries, hatt, hrest, get_next_proxy_none, List.replicate_succ]

lemma runRetries_first_success (att : Nat → AttemptOutcome) (r : CrawlResult) :
    ∀ k i maxR, (∀ j, j < k → attOk (att (i + j)) = false) →
      att (i + k) = .res r → r.success = true → k < maxR →
      runRetries att i maxR = (some r, k + 1, List.replicate (k + 1) none) := by
  intro k
  induction k with
  | zero =>
    intro i maxR _ hatt hs hlt
    cases maxR with
    | zero => omega
    | succ m =>
      simp only [Nat.add_zero] at hatt
      simp [runRetries, hatt, hs, get_next_proxy_none]
  | succ k ih =>
    intro i maxR h hatt hs hlt
    cases maxR with
    | zero => omega
    | succ m =>
      have h0 : attOk (att i) = false := by simpa using h 0 (Nat.succ_pos k)
      have hrest : runRetries att (i + 1) m = (some r, k + 1, List.replicate (k + 1) none) := by
        apply ih (i + 1) m
        · intro j hj
          have := h (j + 1) (by omega)
          simpa [Nat.add_assoc, Nat.add_comm 1 j] using this
        · have : i + 1 + k = i + (k + 1) := by omega
          rw [this]; exact hatt
        · exact hs
        · omega
      cases hatt0 : att i with
      | res r0 =>
        have hs0 : r0.success = false := by simpa [attOk, hatt0] using h0
        simp [runRetries, hatt0, hs0, hrest, get_next_proxy_none, List.replicate_succ]
      | err =>
        simp [runRetries, hatt0, hrest, get_next_proxy_none, List.replicate_succ]

lemma runRetries_pos (att : Nat → AttemptOutcome) (i m : Nat) :
    1 ≤ (runRetries att i (m + 1)).2.1 := by
  cases hatt : att i with
  | res r =>
    by_cases hs : r.success = true
    · simp [runRetries, hatt, hs]
    · simp [runRetries, hatt, hs]
  | err =>
    simp [runRetries, hatt]

/-! ### Claims C5, C6, C8 -/

/-- Claim C5, counterexample: the URL http://h/a.pdf?x=1 has a path ending
in .pdf, yet is_downloadable consults the network probe and, when the probe
reports a text/html page, classifies it as not downloadable — because the
code tests the extension on the whole URL string, not on the path. -/
theorem claim_C5_counterexample :
    endsSeg (S ".pdf") (lowerS (urlparse pdfQ).path) = true ∧
    is_downloadable pdfQ (ProbeOutcome.headers (S "text/html") []) = (false, true) := by
  decide

/-- Claim C5, amended: every URL whose lower-cased full text (not merely its
path) ends in .pdf, .doc, .docx or .txt is classified Downloadable without
the network probe being consulted. -/
theorem claim_C5 (url : Str) (probe : ProbeOutcome)
    (h : endswithDocExt (lowerS url) = true) :
    is_downloadable url probe = (true, false) := by
  simp [is_downloadable, h]

/-- Witness for claim C5 at the concrete URL http://h/b.pdf. -/
theorem claim_C5_witness :
    endswithDocExt (lowerS (S "http://h/b.pdf")) = true ∧
    is_downloadable (S "http://h/b.pdf") ProbeOutcome.err = (true, false) :=
  ⟨by decide, claim_C5 (S "http://h/b.pdf") ProbeOutcome.err (by decide)⟩

/-- Claim C6: the retry loop of crawl_url performs exactly MAX_RETRIES (5)
render attempts when every attempt fails, and then gives up with no result;
when the first successful attempt is attempt k, it returns that result
immediately after k+1 attempts; one proxy is drawn from the pool per attempt
(each draw yielding none, the pool being empty with USE_PROXIES false). -/
theorem claim_C6 :
    MAX_RETRIES = 5 ∧
    (∀ att : Nat → AttemptOutcome, ∀ maxR : Nat,
      (∀ i, i < maxR → attOk (att i) = false) →
      runRetries att 0 maxR = (none, maxR, List.replicate maxR none)) ∧
    (∀ att : Nat → AttemptOutcome, ∀ k maxR : Nat, ∀ r : CrawlResult,
      (∀ i, i < k → attOk (att i) = false) → att k = .res r → r.success = true →
      k < maxR →
      runRetries att 0 maxR = (some r, k + 1, List.replicate (k + 1) none)) := by
  refine ⟨rfl, ?_, ?_⟩
  · intro att maxR h
    apply runRetries_all_fail
    intro j hj
    simpa using h j hj
  · intro att k maxR r h hatt hs hlt
    apply runRetries_first_success att r k 0 maxR
    · intro j hj; simpa using h j hj
    · simpa using hatt
    · exact hs
    · exact hlt

/-- Witness for claim C6: all five attempts fail for the always-raising
renderer; a success on attempt index 2 returns after three attempts. -/
theorem claim_C6_witness :
    runRetries (fun _ => AttemptOutcome.err) 0 MAX_RETRIES = (none, 5, List.replicate 5 none) ∧
    runRetries (fun i => if i = 2 then AttemptOutcome.res resB else AttemptOutcome.err) 0 MAX_RETRIES
      = (some resB, 3, List.replicate 3 none) := by
  constructor
  · have := claim_C6.2.1 (fun _ => AttemptOutcome.err) MAX_RETRIES (by intro i _; rfl)
    simpa [MAX_RETRIES] using this
  · exact claim_C6.2.2 (fun i => if i = 2 then AttemptOutcome.res resB else AttemptOutcome.err)
      2 MAX_RETRIES resB (by decide) (by decide) (by decide) (by decide)

/-- Claim C8: when the extension test misses and the classification probe
fails with a network error, the URL is not dropped: it is classified as a
page (probe consulted, result false) and crawl_url proceeds to the
render-with-retries path, making at least one render attempt. -/
theorem claim_C8 (env : CrawlEnv) (url : Str)
    (hext : endswithDocExt (lowerS url) = false) (hprobe : env.probe url = ProbeOutcome.err) :
    is_downloadable url (env.probe url) = (false, true) ∧
    crawl_url env url =
      { result := (runRetries (env.att url) 0 MAX_RETRIES).1, probed := true,
        downloaded := false, attempts := (runRetries (env.att url) 0 MAX_RETRIES).2.1 } ∧
    1 ≤ (crawl_url env url).attempts := by
  have h1 : is_downloadable url (env.probe url) = (false, true) := by
    simp [is_downloadable, hext, hprobe]
  have h2 : crawl_url env url =
      { result := (runRetries (env.att url) 0 MAX_RETRIES).1, probed := true,
        downloaded := false, attempts := (runRetries (env.att url) 0 MAX_RETRIES).2.1 } := by
    simp [crawl_url, h1]
  refine ⟨h1, h2, ?_⟩
  rw [h2]
  exact runRetries_pos (env.att url) 0 4

/-- Witness for claim C8 at urlB in the all-failing environment. -/
theorem claim_C8_witness :
    is_downloadable urlB (envFailAll.probe urlB) = (false, true) ∧
    crawl_url envFailAll urlB =
      { result := (runRetries (envFailAll.att urlB) 0 MAX_RETRIES).1, probed := true,
        downloaded := false, attempts := (runRetries (envFailAll.att urlB) 0 MAX_RETRIES).2.1 } ∧
    1 ≤ (crawl_url envFailAll urlB).attempts :=
  claim_C8 envFailAll urlB (by decide) rfl

/-! ### Claims C4, C9, C10 -/

/-- Claim C4, counterexample: the specification's normalizer (path casing
untouched) and the code's normalize_url disagree on http://h/A — the code
also lower-cases the path. -/
theorem claim_C4_counterexample :
    normalize_url (S "http://h/A") = S "http://h/a" ∧
    specNormalize (S "http://h/A") = S "http://h/A" ∧
    normalize_url (S "http://h/A") ≠ specNormalize (S "http://h/A") := by
  decide

/-- Claim C4, amended: normalize_url performs exactly these steps — strip
the fragment, parse, strip trailing slashes from the path, and rebuild with
lower-cased scheme, host AND path, every other component unchanged; an
empty path never becomes anything else (trailing-slash stripping keeps it
empty); the function is pure (a plain function of the URL string in this
embedding). -/
theorem claim_C4 (url : Str) :
    normalize_url url = specNormalizeAmended url ∧ rstripSlash ([] : Str) = [] :=
  ⟨rfl, rfl⟩

/-- Claim C9: download_file appends the url,filename record to the map file
only when every step succeeded — in particular only after the entire body
was streamed into the output file — and any failure (network error on the
GET, directory creation, file open, read error mid-body, append failure)
leaves the map file untouched; the function always returns normally (it is
total in this embedding, mirroring the enclosing try/except). -/
theorem claim_C9 :
    (∀ env url fs, dlAllOk env = false → (download_file env url fs).mapLines = fs.mapLines) ∧
    (∀ env url fs resp, env.resp = some resp → dlAllOk env = true →
      download_file env url fs =
        ⟨fs.files ++ [(download_filename url resp.contentDisp, joinChunks resp.chunks)],
         fs.mapLines ++ [url ++ ch ',' :: download_filename url resp.contentDisp]⟩) := by
  constructor
  · intro env url fs h
    obtain ⟨resp?, mk, op, ap⟩ := env
    cases resp? with
    | none => rfl
    | some resp =>
      obtain ⟨cd, chunks, re⟩ := resp
      cases mk <;> cases op <;> cases re <;> cases ap <;>
        simp_all [download_file, dlAllOk]
  · intro env url fs resp hresp h
    obtain ⟨mresp, mk, op, ap⟩ := env
    have hresp' : mresp = some resp := hresp
    subst hresp'
    obtain ⟨cd, chunks, re⟩ := resp
    cases mk <;> cases op <;> cases re <;> cases ap <;>
      simp_all [download_file, dlAllOk]

/-- Witness for claim C9: with a failing map append nothing is recorded;
with every step succeeding the file holds the whole body and the map gains
one line. -/
theorem claim_C9_witness :
    (download_file dlEnvNoAppend (S "http://h/r.pdf") ⟨[], []⟩).mapLines = [] ∧
    download_file dlEnvOk (S "http://h/r.pdf") ⟨[], []⟩ =
      ⟨[(S "r.pdf", S "ABCD")], [S "http://h/r.pdf,r.pdf"]⟩ := by
  constructor
  · exact claim_C9.1 dlEnvNoAppend (S "http://h/r.pdf") ⟨[], []⟩ (by decide)
  · rw [claim_C9.2 dlEnvOk (S "http://h/r.pdf") ⟨[], []⟩ dlRespOk rfl (by decide)]
    decide

lemma urlunsplit_split (s n u q f : Str) :
    urlunsplit s n u q f =
      (if f ≠ [] then
        (if q ≠ [] then urlunsplit s n u [] [] ++ ch '?' :: q else urlunsplit s n u [] []) ++ ch '#' :: f
       else
        (if q ≠ [] then urlunsplit s n u [] [] ++ ch '?' :: q else urlunsplit s n u [] [])) := by
  simp [urlunsplit]

lemma qf_ne (B q1 q2 f : Str) (h : q1 ≠ q2) :
    (if f ≠ [] then (if q1 ≠ [] then B ++ ch '?' :: q1 else B) ++ ch '#' :: f
     else (if q1 ≠ [] then B ++ ch '?' :: q1 else B)) ≠
    (if f ≠ [] then (if q2 ≠ [] then B ++ ch '?' :: q2 else B) ++ ch '#' :: f
     else (if q2 ≠ [] then B ++ ch '?' :: q2 else B)) := by
  have core : (if q1 ≠ [] then B ++ ch '?' :: q1 else B) ≠
      (if q2 ≠ [] then B ++ ch '?' :: q2 else B) := by
    by_cases h1 : q1 = []
    · by_cases h2 : q2 = []
      · exact absurd (h1.trans h2.symm) h
      · simp only [ne_eq, h1, not_true_eq_false, if_false, h2, not_false_eq_true, if_true]
        intro hx
        have := congrArg List.length hx
        simp at this
    · by_cases h2 : q2 = []
      · simp only [ne_eq, h1, not_false_eq_true, if_true, h2, not_true_eq_false, if_false]
        intro hx
        have := congrArg List.length hx
        simp at this
      · simp only [ne_eq, h1, h2, not_false_eq_true, if_true]
        intro hx
        have h3 := List.append_cancel_left hx
        exact h (by injection h3)
  by_cases hf : f = []
  · simpa [hf] using core
  · simp only [ne_eq, hf, not_false_eq_true, if_true]
    intro hx
    exact core (List.append_cancel_right hx)

lemma urlunparse_query_ne (p : PParse) (q1 q2 : Str) (h : q1 ≠ q2) :
    urlunparse { p with query := q1 } ≠ urlunparse { p with query := q2 } := by
  have e : ∀ q : Str, urlunparse { p with query := q } =
      urlunsplit p.scheme p.netloc
        (if p.params ≠ [] then p.path ++ ch ';' :: p.params else p.path) q p.fragment :=
    fun q => rfl
  rw [e q1, e q2,
    urlunsplit_split p.scheme p.netloc
      (if p.params ≠ [] then p.path ++ ch ';' :: p.params else p.path) q1 p.fragment,
    urlunsplit_split p.scheme p.netloc
      (if p.params ≠ [] then p.path ++ ch ';' :: p.params else p.path) q2 p.fragment]
  exact qf_ne _ q1 q2 p.fragment h

/-- Claim C10: normalize_url rebuilds the URL with the params and query
components of the parse unchanged (their letter-casing included), and two
URLs whose defragmented parses agree on every component except the query
normalize to distinct values. -/
theorem claim_C10 (u u1 u2 : Str) (p1 p2 : PParse)
    (h1 : p1 = urlparse (urldefrag u1).1) (h2 : p2 = urlparse (urldefrag u2).1)
    (hs : p1.scheme = p2.scheme) (hn : p1.netloc = p2.netloc) (hp : p1.path = p2.path)
    (ha : p1.params = p2.params) (hf : p1.fragment = p2.fragment)
    (hq : p1.query ≠ p2.query) :
    ((normTransform (urlparse (urldefrag u).1)).params = (urlparse (urldefrag u).1).params ∧
     (normTransform (urlparse (urldefrag u).1)).query = (urlparse (urldefrag u).1).query) ∧
    normalize_url u1 ≠ normalize_url u2 := by
  refine ⟨⟨rfl, rfl⟩, ?_⟩
  have e1 : normalize_url u1 = urlunparse (normTransform p1) := by rw [h1]; rfl
  have e2 : normalize_url u2 = urlunparse (normTransform p2) := by rw [h2]; rfl
  rw [e1, e2]
  have eq1 : normTransform p1 = { normTransform p2 with query := p1.query } := by
    obtain ⟨s1, n1, pa1, pr1, q1, f1⟩ := p1
    obtain ⟨s2, n2, pa2, pr2, q2, f2⟩ := p2
    simp_all [normTransform]
  have eq2 : normTransform p2 = { normTransform p2 with query := p2.query } := rfl
  rw [eq1, eq2]
  exact urlunparse_query_ne (normTransform p2) p1.query p2.query hq

/-- Witness for claim C10 at http://h/a?x=1 and http://h/a?y=2. -/
theorem claim_C10_witness :
    ((normTransform (urlparse (urldefrag (S "http://h/a?x=1")).1)).params =
      (urlparse (urldefrag (S "http://h/a?x=1")).1).params ∧
     (normTransform (urlparse (urldefrag (S "http://h/a?x=1")).1)).query =
      (urlparse (urldefrag (S "http://h/a?x=1")).1).query) ∧
    normalize_url (S "http://h/a?x=1") ≠ normalize_url (S "http://h/a?y=2") :=
  claim_C10 (S "http://h/a?x=1") (S "http://h/a?x=1") (S "http://h/a?y=2")
    (urlparse (urldefrag (S "http://h/a?x=1")).1) (urlparse (urldefrag (S "http://h/a?y=2")).1)
    rfl rfl (by decide) (by decide) (by decide) (by decide) (by decide) (by decide)

/-! ### Crawl-loop lemmas -/

lemma mem_insertSet_iff (a b : Str) (l : List Str) :
    a ∈ insertSet b l ↔ a = b ∨ a ∈ l := by
  by_cases h : b ∈ l
  · simp only [insertSet, if_pos h]
    constructor
    · exact Or.inr
    · rintro (rfl | ha)
      · exact h
      · exact ha
  · simp [insertSet, if_neg h, List.mem_append, or_comm]

lemma foldResults_nil_eq (base : Str) (v n : List Str) :
    foldResults base [] v n = (v, n) := rfl

lemma foldResults_none_eq (base : Str) (rs : List (Option CrawlResult)) (v n : List Str) :
    foldResults base (none :: rs) v n = foldResults base rs v n := rfl

lemma foldResults_some_eq (base : Str) (r0 : CrawlResult) (rs : List (Option CrawlResult))
    (v n : List Str) :
    foldResults base (some r0 :: rs) v n =
      foldResults base rs (insertSet (normalize_url r0.url) v)
        (if r0.success then
          r0.internalLinks.foldl (fun acc href =>
            if netlocLower (normalize_url href) = base ∧
                normalize_url href ∉ insertSet (normalize_url r0.url) v then
              insertSet (normalize_url href) acc
            else acc) n
         else n) := rfl

lemma foldResults_visited_iff (base : Str) (rs : List (Option CrawlResult)) :
    ∀ visited nextL u, u ∈ (foldResults base rs visited nextL).1 ↔
      u ∈ visited ∨ ∃ r, some r ∈ rs ∧ normalize_url r.url = u := by
  induction rs with
  | nil => intro visited nextL u; simp [foldResults_nil_eq]
  | cons r? rs ih =>
    intro visited nextL u
    cases r? with
    | none =>
      rw [foldResults_none_eq, ih]
      simp
    | some r0 =>
      rw [foldResults_some_eq, ih]
      rw [mem_insertSet_iff]
      constructor
      · rintro ((rfl | hv) | ⟨r, hr, he⟩)
        · exact Or.inr ⟨r0, by simp, rfl⟩
        · exact Or.inl hv
        · exact Or.inr ⟨r, by simp [hr], he⟩
      · rintro (hv | ⟨r, hr, he⟩)
        · exact Or.inl (Or.inr hv)
        · rcases List.mem_cons.mp hr with h0 | hrs
          · obtain rfl : r0 = r := by injection h0.symm
            exact Or.inl (Or.inl he.symm)
          · exact Or.inr ⟨r, hrs, he⟩

lemma foldResults_visited_mono (base : Str) (rs : List (Option CrawlResult))
    (visited nextL : List Str) (v : Str) (h : v ∈ visited) :
    v ∈ (foldResults base rs visited nextL).1 :=
  (foldResults_visited_iff base rs visited nextL v).mpr (Or.inl h)

lemma foldResults_visited_add (base : Str) (rs : List (Option CrawlResult))
    (visited nextL : List Str) (r : CrawlResult) (h : some r ∈ rs) :
    normalize_url r.url ∈ (foldResults base rs visited nextL).1 :=
  (foldResults_visited_iff base rs visited nextL _).mpr (Or.inr ⟨r, h, rfl⟩)

lemma addLinks_mem (base : Str) (visited1 : List Str) (links : List Str) :
    ∀ acc u, u ∈ links.foldl (fun acc href =>
        if netlocLower (normalize_url href) = base ∧ normalize_url href ∉ visited1 then
          insertSet (normalize_url href) acc
        else acc) acc →
      u ∈ acc ∨ netlocLower u = base := by
  induction links with
  | nil => intro acc u h; exact Or.inl h
  | cons l t ih =>
    intro acc u h
    rw [List.foldl_cons] at h
    rcases ih _ u h with hstep | hbase
    · by_cases hc : netlocLower (normalize_url l) = base ∧ normalize_url l ∉ visited1
      · rw [if_pos hc] at hstep
        rcases (mem_insertSet_iff _ _ _).mp hstep with rfl | hacc
        · exact Or.inr hc.1
        · exact Or.inl hacc
      · rw [if_neg hc] at hstep
        exact Or.inl hstep
    · exact Or.inr hbase

lemma foldResults_next_mem (base : Str) (rs : List (Option CrawlResult)) :
    ∀ visited nextL u, u ∈ (foldResults base rs visited nextL).2 →
      u ∈ nextL ∨ netlocLower u = base := by
  induction rs with
  | nil => intro visited nextL u h; exact Or.inl h
  | cons r? rs ih =>
    intro visited nextL u h
    cases r? with
    | none =>
      rw [foldResults_none_eq] at h
      exact ih visited nextL u h
    | some r0 =>
      rw [foldResults_some_eq] at h
      rcases ih _ _ u h with hn | hb
      · by_cases hs : r0.success = true
        · rw [if_pos hs] at hn
          exact addLinks_mem base _ _ nextL u hn
        · rw [if_neg hs] at hn
          exact Or.inl hn
      · exact Or.inr hb

lemma addLinks_id (base : Str) (visited1 : List Str) (links : List Str)
    (hoff : ∀ href ∈ links, netlocLower (normalize_url href) ≠ base) :
    ∀ acc, links.foldl (fun acc href =>
        if netlocLower (normalize_url href) = base ∧ normalize_url href ∉ visited1 then
          insertSet (normalize_url href) acc
        else acc) acc = acc := by
  induction links with
  | nil => intro acc; rfl
  | cons l t ih =>
    intro acc
    have hl : ¬ (netlocLower (normalize_url l) = base ∧ normalize_url l ∉ visited1) := by
      intro hc
      exact hoff l (List.mem_cons_self l t) hc.1
    rw [List.foldl_cons, if_neg hl]
    exact ih (fun href h => hoff href (List.mem_cons_of_mem l h)) acc

lemma foldResults_next_id (base : Str) (rs : List (Option CrawlResult)) :
    ∀ visited nextL,
      (∀ r, some r ∈ rs → ∀ href ∈ r.internalLinks, netlocLower (normalize_url href) ≠ base) →
      (foldResults base rs visited nextL).2 = nextL := by
  induction rs with
  | nil => intro visited nextL _; rfl
  | cons r? rs ih =>
    intro visited nextL hoff
    cases r? with
    | none =>
      rw [foldResults_none_eq]
      exact ih visited nextL (fun r hr => hoff r (List.mem_cons_of_mem _ hr))
    | some r0 =>
      have e : (if r0.success = true then
          r0.internalLinks.foldl (fun acc href =>
            if netlocLower (normalize_url href) = base ∧
                normalize_url href ∉ insertSet (normalize_url r0.url) visited then
              insertSet (normalize_url href) acc
            else acc) nextL
        else nextL) = nextL := by
        by_cases hs : r0.success = true
        · rw [if_pos hs]
          exact addLinks_id base _ _ (hoff r0 (List.mem_cons_self _ _)) nextL
        · rw [if_neg hs]
      rw [foldResults_some_eq, e]
      exact ih _ nextL (fun r hr => hoff r (List.mem_cons_of_mem _ hr))

lemma crawlLoop_zero_eq (env : CrawlEnv) (base : Str) (v c : List Str) :
    crawlLoop env base v c 0 = ⟨[], v⟩ := rfl

lemma crawlLoop_succ_eq (env : CrawlEnv) (base : Str) (v c : List Str) (d : Nat) :
    crawlLoop env base v c (d + 1) =
      if c.filterMap (fun u => if normalize_url u ∈ v then none else some (normalize_url u)) = []
      then ⟨[], v⟩
      else
        ⟨(c.filterMap (fun u => if normalize_url u ∈ v then none else some (normalize_url u))) ::
          (crawlLoop env base
            (foldResults base
              ((c.filterMap (fun u => if normalize_url u ∈ v then none else some (normalize_url u))).map
                (fun u => (crawl_url env u).result)) v []).1
            (foldResults base
              ((c.filterMap (fun u => if normalize_url u ∈ v then none else some (normalize_url u))).map
                (fun u => (crawl_url env u).result)) v []).2 d).waves,
         (crawlLoop env base
            (foldResults base
              ((c.filterMap (fun u => if normalize_url u ∈ v then none else some (normalize_url u))).map
                (fun u => (crawl_url env u).result)) v []).1
            (foldResults base
              ((c.filterMap (fun u => if normalize_url u ∈ v then none else some (normalize_url u))).map
                (fun u => (crawl_url env u).result)) v []).2 d).visitedF⟩ := rfl

lemma crawlLoop_waves_nil (env : CrawlEnv) (base : Str) (visited : List Str) (fuel : Nat) :
    (crawlLoop env base visited [] fuel).waves = [] := by
  cases fuel with
  | zero => rfl
  | succ d => rw [crawlLoop_succ_eq]; simp

lemma crawlLoop_avoid (env : CrawlEnv) (base : Str) :
    ∀ fuel visited current w, w ∈ (crawlLoop env base visited current fuel).waves →
      ∀ u ∈ w, u ∉ visited := by
  intro fuel
  induction fuel with
  | zero =>
    intro visited current w hw
    rw [crawlLoop_zero_eq] at hw
    simp at hw
  | succ d ih =>
    intro visited current w hw u hu
    rw [crawlLoop_succ_eq] at hw
    by_cases hc : current.filterMap (fun u =>
        if normalize_url u ∈ visited then none else some (normalize_url u)) = []
    · rw [if_pos hc] at hw
      simp at hw
    · rw [if_neg hc] at hw
      rcases List.mem_cons.mp hw with rfl | hrest
      · obtain ⟨c, _hc, hcu⟩ := List.mem_filterMap.mp hu
        by_cases hv : normalize_url c ∈ visited
        · simp [hv] at hcu
        · simp only [hv, if_neg, if_false, Option.some.injEq] at hcu
          subst hcu
          exact hv
      · intro hvis
        exact ih _ _ w hrest u hu (foldResults_visited_mono base _ visited [] u hvis)

lemma mem_getD_nil (u : Str) : ∀ (l : List (List Str)) (i : Nat), u ∈ l.getD i [] →
    ∃ w ∈ l, u ∈ w := by
  intro l
  induction l with
  | nil => intro i h; simp [List.getD] at h
  | cons a t ih =>
    intro i h
    cases i with
    | zero => exact ⟨a, List.mem_cons_self a t, h⟩
    | succ j =>
      obtain ⟨w, hw, hu⟩ := ih j h
      exact ⟨w, List.mem_cons_of_mem a hw, hu⟩

lemma crawlLoop_once (env : CrawlEnv) (base : Str) :
    ∀ fuel visited current d d' u r, d < d' →
      u ∈ ((crawlLoop env base visited current fuel).waves.getD d []) →
      (crawl_url env u).result = some r → normalize_url r.url = u →
      u ∉ ((crawlLoop env base visited current fuel).waves.getD d' []) := by
  intro fuel
  induction fuel with
  | zero =>
    intro visited current d d' u r _ hu
    rw [crawlLoop_zero_eq] at hu
    simp [List.getD] at hu
  | succ fu ih =>
    intro visited current d d' u r hd hu hres hnorm hbad
    rw [crawlLoop_succ_eq] at hu hbad
    by_cases hc : current.filterMap (fun u =>
        if normalize_url u ∈ visited then none else some (normalize_url u)) = []
    · rw [if_pos hc] at hu
      simp [List.getD] at hu
    · rw [if_neg hc] at hu hbad
      cases d with
      | zero =>
        cases d' with
        | zero => omega
        | succ e =>
          have hu0 : u ∈ current.filterMap (fun u =>
              if normalize_url u ∈ visited then none else some (normalize_url u)) := hu
          have hmem : some r ∈ (current.filterMap (fun u =>
              if normalize_url u ∈ visited then none else some (normalize_url u))).map
                (fun u => (crawl_url env u).result) := by
            rw [← hres]
            exact List.mem_map_of_mem _ hu0
          have hvis : u ∈ (foldResults base ((current.filterMap (fun u =>
              if normalize_url u ∈ visited then none else some (normalize_url u))).map
                (fun u => (crawl_url env u).result)) visited []).1 := by
            rw [← hnorm]
            exact foldResults_visited_add base _ visited [] r hmem
          obtain ⟨w, hw, huw⟩ := mem_getD_nil u _ e hbad
          exact crawlLoop_avoid env base fu _ _ w hw u huw hvis
      | succ dd =>
        cases d' with
        | zero => omega
        | succ ee =>
          exact ih _ _ dd ee u r (by omega) hu hres hnorm hbad

lemma runRetries_result_att (att : Nat → AttemptOutcome) (r : CrawlResult) :
    ∀ maxR i, (runRetries att i maxR).1 = some r → ∃ j, att j = .res r := by
  intro maxR
  induction maxR with
  | zero => intro i h; simp [runRetries] at h
  | succ m ih =>
    intro i h
    cases hatt : att i with
    | res r0 =>
      by_cases hs : r0.success = true
      · rw [show (runRetries att i (m + 1)).1 = some r0 from by
          simp [runRetries, hatt, hs]] at h
        obtain rfl : r0 = r := by injection h
        exact ⟨i, hatt⟩
      · rw [show (runRetries att i (m + 1)).1 = (runRetries att (i + 1) m).1 from by
          simp [runRetries, hatt, hs]] at h
        exact ih (i + 1) h
    | err =>
      rw [show (runRetries att i (m + 1)).1 = (runRetries att (i + 1) m).1 from by
        simp [runRetries, hatt]] at h
      exact ih (i + 1) h

lemma crawl_url_result_att (env : CrawlEnv) (u : Str) (r : CrawlResult)
    (h : (crawl_url env u).result = some r) : ∃ j, env.att u j = .res r := by
  unfold crawl_url at h
  by_cases hc : (is_downloadable u (env.probe u)).1 = true
  · simp [hc] at h
  · simp only [hc, if_neg, if_false, Bool.not_eq_true] at h
    exact runRetries_result_att (env.att u) r MAX_RETRIES 0 h

lemma insertSet_ne_nil (a : Str) (l : List Str) : insertSet a l ≠ [] := by
  unfold insertSet
  split
  · intro h
    subst h
    simp_all
  · simp

lemma foldl_insertSet_ne_nil (t : List Str) :
    ∀ acc : List Str, acc ≠ [] →
      t.foldl (fun acc u => insertSet (normalize_url u) acc) acc ≠ [] := by
  induction t with
  | nil => intro acc h; exact h
  | cons a t ih =>
    intro acc _
    exact ih _ (insertSet_ne_nil _ acc)

lemma seeds_fold_ne_nil (l : List Str) (h : l ≠ []) :
    l.foldl (fun acc u => insertSet (normalize_url u) acc) [] ≠ [] := by
  obtain ⟨a, t, rfl⟩ := List.exists_cons_of_ne_nil h
  rw [List.foldl_cons]
  exact foldl_insertSet_ne_nil t _ (insertSet_ne_nil _ [])

lemma filterMap_fresh (l : List Str) :
    l.filterMap (fun u => if normalize_url u ∈ ([] : List Str) then none
      else some (normalize_url u)) = l.map normalize_url := by
  have e : ∀ m : List Str, m.filterMap (fun u => some (normalize_url u)) = m.map normalize_url := by
    intro m
    induction m with
    | nil => rfl
    | cons a t ih => simp [List.filterMap_cons, ih]
  simp [e]

/-! ### Claims C1, C2, C7 -/

/-- Claim C1, counterexample: urlA is selected into urls_to_crawl in two
waves of the same run. Its first fetch exhausts the retries, crawl_url
returns None, the fold skips None results, so urlA is never marked visited;
when urlB's page links to it, it re-enters the frontier and is fetched
again at the next depth. -/
theorem claim_C1_counterexample :
    (crawl_recursive_batch envRefetch [urlB, urlA] 2).waves = [[urlB, urlA], [urlA]] ∧
    urlA ∈ ((crawl_recursive_batch envRefetch [urlB, urlA] 2).waves.getD 0 []) ∧
    urlA ∈ ((crawl_recursive_batch envRefetch [urlB, urlA] 2).waves.getD 1 []) := by
  decide

/-- Claim C1, amended: a URL whose crawl in some wave returns a non-None
result whose normalized final URL equals the URL itself is never selected
into urls_to_crawl in any later wave. (URLs whose processing yields None —
downloads and give-ups — are not marked visited and can be re-selected, as
the counterexample shows; a successfully processed URL can still transiently
enter a later frontier set, but the visited filter removes it before it is
crawled.) -/
theorem claim_C1 (env : CrawlEnv) (start_urls : List Str) (maxD d d' : Nat)
    (u : Str) (r : CrawlResult) (hd : d < d')
    (hu : u ∈ ((crawl_recursive_batch env start_urls maxD).waves.getD d []))
    (hres : (crawl_url env u).result = some r)
    (hnorm : normalize_url r.url = u) :
    u ∉ ((crawl_recursive_batch env start_urls maxD).waves.getD d' []) := by
  have e : crawl_recursive_batch env start_urls maxD =
      crawlLoop env (baseDomainOf start_urls) []
        (start_urls.foldl (fun acc u => insertSet (normalize_url u) acc) []) maxD := rfl
  rw [e] at hu ⊢
  exact crawlLoop_once env (baseDomainOf start_urls) maxD [] _ d d' u r hd hu hres hnorm

/-- Witness for claim C1: in the all-successful environment, urlB is crawled
in wave 0 and never again in wave 1. -/
theorem claim_C1_witness :
    urlB ∉ ((crawl_recursive_batch envSucc [urlB] 2).waves.getD 1 []) :=
  claim_C1 envSucc [urlB] 2 0 1 urlB resB (by decide) (by decide) (by decide) (by decide)

/-- Claim C2, counterexample: the seed urlA is processed in wave 0, its
retries are exhausted (a Failed outcome), yet the final VisitedSet is empty
— None results are skipped by the fold, so failed (and downloaded) URLs are
never marked visited, contrary to the claim. -/
theorem claim_C2_counterexample :
    (crawl_recursive_batch envFailAll [urlA] 1).waves = [[urlA]] ∧
    (crawl_recursive_batch envFailAll [urlA] 1).visitedF = [] := by
  decide

/-- Claim C2, amended: when a wave's results are folded, VisitedSet receives
exactly the normalized final URLs of the non-None results; a None result
(Downloaded or Failed) is skipped entirely — it contributes no visited
entry, no content and no links. -/
theorem claim_C2 :
    (∀ base rs visited nextL u, u ∈ (foldResults base rs visited nextL).1 ↔
      u ∈ visited ∨ ∃ r, some r ∈ rs ∧ normalize_url r.url = u) ∧
    (∀ base rs visited nextL, foldResults base (none :: rs) visited nextL =
      foldResults base rs visited nextL) :=
  ⟨foldResults_visited_iff, fun base rs visited nextL => foldResults_none_eq base rs visited nextL⟩

/-- Claim C7: every URL the fold admits into the next level's frontier has
its normalized host equal to the base domain (the lowered host of the first
seed URL, which is what crawl_recursive_batch passes for base); and when
every rendered page links only off-domain, the crawl executes at most one
wave — exactly one when there is a seed and a positive depth bound. -/
theorem claim_C7 :
    (∀ base rs visited u, u ∈ (foldResults base rs visited []).2 → netlocLower u = base) ∧
    (∀ env start_urls maxD,
      (∀ u i r, env.att u i = AttemptOutcome.res r →
        ∀ href ∈ r.internalLinks, netlocLower (normalize_url href) ≠ baseDomainOf start_urls) →
      (crawl_recursive_batch env start_urls maxD).waves.length ≤ 1 ∧
      (1 ≤ maxD → start_urls ≠ [] →
        (crawl_recursive_batch env start_urls maxD).waves.length = 1)) := by
  constructor
  · intro base rs visited u h
    rcases foldResults_next_mem base rs visited [] u h with hn | hb
    · simp at hn
    · exact hb
  · intro env start_urls maxD hoff
    have hoff' : ∀ r, some r ∈ ((start_urls.foldl (fun acc u => insertSet (normalize_url u) acc)
        []).filterMap (fun u => if normalize_url u ∈ ([] : List Str) then none
          else some (normalize_url u))).map (fun u => (crawl_url env u).result) →
        ∀ href ∈ r.internalLinks, netlocLower (normalize_url href) ≠ baseDomainOf start_urls := by
      intro r hr
      obtain ⟨u, _hu, hres⟩ := List.mem_map.mp hr
      obtain ⟨j, hj⟩ := crawl_url_result_att env u r hres
      exact hoff u j r hj
    have e : crawl_recursive_batch env start_urls maxD =
        crawlLoop env (baseDomainOf start_urls) []
          (start_urls.foldl (fun acc u => insertSet (normalize_url u) acc) []) maxD := rfl
    rw [e]
    cases maxD with
    | zero =>
      constructor
      · rw [crawlLoop_zero_eq]; simp
      · intro h; omega
    | succ dd =>
      rw [crawlLoop_succ_eq]
      by_cases hc : (start_urls.foldl (fun acc u => insertSet (normalize_url u) acc)
          []).filterMap (fun u => if normalize_url u ∈ ([] : List Str) then none
            else some (normalize_url u)) = []
      · constructor
        · rw [if_pos hc]; simp
        · intro _ hne
          exfalso
          rw [filterMap_fresh] at hc
          exact seeds_fold_ne_nil start_urls hne (List.map_eq_nil_iff.mp hc)
      · rw [if_neg hc]
        have hnext : (foldResults (baseDomainOf start_urls)
            (((start_urls.foldl (fun acc u => insertSet (normalize_url u) acc)
              []).filterMap (fun u => if normalize_url u ∈ ([] : List Str) then none
                else some (normalize_url u))).map (fun u => (crawl_url env u).result)) [] []).2
            = [] :=
          foldResults_next_id (baseDomainOf start_urls) _ [] [] hoff'
        rw [hnext, crawlLoop_waves_nil]
        constructor
        · simp
        · intro _ _; simp

/-- Witness for claim C7: one seed whose page links only off-domain gives a
single-wave crawl even with depth bound 3. -/
theorem claim_C7_witness :
    (crawl_recursive_batch envOffDomain [urlB] 3).waves.length = 1 := by
  refine (claim_C7.2 envOffDomain [urlB] 3 ?_).2 (by omega) (by simp)
  intro u i r h href hh
  have hr : resOff = r := by
    have h' : AttemptOutcome.res resOff = AttemptOutcome.res r := h
    injection h'
  subst hr
  have : href = offLink := by
    simpa [resOff] using hh
  subst this
  decide

/-- Claim C3, counterexample: normalize is NOT idempotent on every URL.
For http://h/a/;b/ the first pass strips the trailing slash, which moves
the last slash of the path in front of the semicolon; the second pass then
re-splits ;b as a params segment and rejoins it differently, yielding
http://h/a;b ≠ http://h/a/;b. -/
theorem claim_C3_counterexample :
    normalize_url (normalize_url (S "http://h/a/;b/")) ≠
      normalize_url (S "http://h/a/;b/") := by
  decide

/-- Claim C3, amended: normalize_url is idempotent on semicolon-free URLs
whose parsed path does not begin with three slashes; two URLs whose
defragmented parses agree up to letter-casing of scheme and host,
letter-casing and trailing slashes of the path, and exactly on params,
query and fragment normalize to the same value; and in particular
normalize_url "HTTP://Example.com/a/" = normalize_url
"http://example.com/a#frag". -/
theorem claim_C3 :
    (∀ u : Str, ch ';' ∉ u →
      (urlparse (urldefrag u).1).path.take 3 ≠ [ch '/', ch '/', ch '/'] →
      normalize_url (normalize_url u) = normalize_url u) ∧
    (∀ u1 u2 : Str,
      lowerS (urlparse (urldefrag u1).1).scheme =
        lowerS (urlparse (urldefrag u2).1).scheme →
      lowerS (urlparse (urldefrag u1).1).netloc =
        lowerS (urlparse (urldefrag u2).1).netloc →
      lowerS (rstripSlash (urlparse (urldefrag u1).1).path) =
        lowerS (rstripSlash (urlparse (urldefrag u2).1).path) →
      (urlparse (urldefrag u1).1).params = (urlparse (urldefrag u2).1).params →
      (urlparse (urldefrag u1).1).query = (urlparse (urldefrag u2).1).query →
      (urlparse (urldefrag u1).1).fragment = (urlparse (urldefrag u2).1).fragment →
      normalize_url u1 = normalize_url u2) ∧
    normalize_url (S "HTTP://Example.com/a/") =
      normalize_url (S "http://example.com/a#frag") := by
  refine ⟨normalize_stable, ?_, by decide⟩
  intro u1 u2 h1 h2 h3 h4 h5 h6
  show urlunparse (normTransform (urlparse (urldefrag u1).1)) =
    urlunparse (normTransform (urlparse (urldefrag u2).1))
  congr 1
  unfold normTransform
  rw [h1, h2, h3, h4, h5, h6]

/-- Witness for claim C3: idempotence at http://h/a with its hypotheses
checked, and casing/trailing-slash insensitivity at http://h/A/ versus
http://H/a. -/
theorem claim_C3_witness :
    (ch ';' ∉ S "http://h/a" ∧
      (urlparse (urldefrag (S "http://h/a")).1).path.take 3 ≠ [ch '/', ch '/', ch '/'] ∧
      normalize_url (normalize_url (S "http://h/a")) = normalize_url (S "http://h/a")) ∧
    normalize_url (S "http://h/A/") = normalize_url (S "http://H/a") :=
  ⟨⟨by decide, by decide, claim_C3.1 (S "http://h/a") (by decide) (by decide)⟩,
    claim_C3.2.1 (S "http://h/A/") (S "http://H/a") (by decide) (by decide) (by decide)
      (by decide) (by decide) (by decide)⟩

end SiteCrawler
